import Mathlib

/-!
Verification of the skill permission subsystem of the codex repository.

This file gives a shallow embedding of `core/src/skills/permissions.rs`
(the permission-profile compiler, the sandbox-policy merge algorithm, the
skill matcher and the effective-permission resolver), together with small
models, written from the specification, of the approval/execution state
machine and the worker-sidecar protocol whose implementations live outside
the sources at hand (only their integration tests are available).

Paths are embedded as a flag for absoluteness together with the list of
path components (`.`, `..` and normal segments), mirroring
`std::path::Path::components`.  Filesystem canonicalization
(`dunce::canonicalize`), the home directory (`dirs::home_dir`), the
conversion of strings to paths (`PathBuf::from`) and the two shell
re-parsers from `crate::bash` are operating-system or out-of-scope
collaborators; they are supplied through an explicit environment record
`PathEnv`, and all theorems quantify over that environment.
-/

/-- A single path component, mirroring `std::path::Component` (the
`RootDir` component is represented by the `absolute` flag of `MPath`). -/
inductive PComp where
  | cur
  | parent
  | normal (seg : String)
deriving DecidableEq

/-- A path: whether it is absolute, and its components in order. -/
structure MPath where
  absolute : Bool
  comps : List PComp
deriving DecidableEq

/-- `p.as_path().starts_with(base)`: component-wise prefix test, as in
`std::path::Path::starts_with`. -/
def mpStartsWith (p base : MPath) : Bool :=
  p.absolute == base.absolute && base.comps.isPrefixOf p.comps

/-- `Path::join` for a relative right-hand side: append the components. -/
def mpJoin (base rel : MPath) : MPath :=
  { absolute := base.absolute, comps := base.comps ++ rel.comps }

/-- `Path::parent`: drop the last component; `none` at a bare root or an
empty path. -/
def mpParent (p : MPath) : Option MPath :=
  match p.comps with
  | [] => none
  | _ :: _ => some { absolute := p.absolute, comps := p.comps.dropLast }

/-- Embedding of `normalize_lexically`: resolve `.` and `..` by pure
segment manipulation, preserving the root marker, never failing. -/
def normalize_lexically (p : MPath) : MPath :=
  { absolute := p.absolute,
    comps := p.comps.foldl (fun acc c =>
      match c with
      | PComp.cur => acc
      | PComp.parent => acc.dropLast
      | PComp.normal seg => acc ++ [PComp.normal seg]) [] }

/- String helpers.  These re-implement the `str` operations used by the
source (`trim`, `starts_with`, `contains`, `split_once`,
`eq_ignore_ascii_case`) by structural recursion on the character list, so
that every definition evaluates inside the kernel. -/

/-- `str::trim` (whitespace at both ends). -/
def strTrim (s : String) : String :=
  ⟨((s.data.dropWhile Char.isWhitespace).reverse.dropWhile Char.isWhitespace).reverse⟩

/-- `str::is_empty`. -/
def strIsEmpty (s : String) : Bool :=
  s.data.isEmpty

/-- `str::starts_with` for a string pattern. -/
def strStartsWith (s pat : String) : Bool :=
  pat.data.isPrefixOf s.data

/-- `str::ends_with` for a string pattern. -/
def strEndsWith (s pat : String) : Bool :=
  pat.data.isSuffixOf s.data

/-- Auxiliary for `strHasSub`: does `pat` occur in the list? -/
def listHasSub (pat : List Char) : List Char → Bool
  | [] => pat.isEmpty
  | c :: rest => pat.isPrefixOf (c :: rest) || listHasSub pat rest

/-- `str::contains` for a string pattern. -/
def strHasSub (s pat : String) : Bool :=
  listHasSub pat.data s.data

/-- `str::contains` for a character pattern. -/
def strContainsChar (s : String) (c : Char) : Bool :=
  s.data.contains c

/-- Auxiliary for `splitOnceChar`: split at the first occurrence of `sep`. -/
def splitOnceList (sep : Char) : List Char → Option (List Char × List Char)
  | [] => none
  | c :: rest =>
    if c = sep then some ([], rest)
    else
      match splitOnceList sep rest with
      | some (a, b) => some (c :: a, b)
      | none => none

/-- `str::split_once` for a character separator. -/
def splitOnceChar (s : String) (sep : Char) : Option (String × String) :=
  (splitOnceList sep s.data).map fun p => (⟨p.1⟩, ⟨p.2⟩)

/-- `str::eq_ignore_ascii_case`. -/
def eqIgnoreAsciiCase (a b : String) : Bool :=
  (a.data.map Char.toLower) == (b.data.map Char.toLower)

/-- `PathBuf::push` rendered on strings (used for `home.join(rest)` in
`expand_home`): an absolute right-hand side replaces the base. -/
def path_join_string (base rest : String) : String :=
  if strStartsWith rest "/" then rest
  else if strEndsWith base "/" then base ++ rest
  else base ++ "/" ++ rest

/-- Embedding of `expand_home`.  `home` is the result of
`dirs::home_dir`, rendered as a string. -/
def expand_home (home : Option String) (path : String) : String :=
  if path = "~" then
    match home with
    | some h => h
    | none => path
  else
    match path.data with
    | '~' :: '/' :: rest =>
      match home with
      | some h => path_join_string h ⟨rest⟩
      | none => path
    | _ => path

/- The sandbox-policy data model, from `crate::protocol` as used by the
source under verification. -/

/-- Network access of an external sandbox. -/
inductive NetworkAccess where
  | Restricted
  | Enabled
deriving DecidableEq

/-- Read-only filesystem access: everything, or a restricted root set. -/
inductive ReadOnlyAccess where
  | FullAccess
  | Restricted (include_platform_defaults : Bool) (readable_roots : List MPath)
deriving DecidableEq

/-- The four sandbox-policy variants. -/
inductive SandboxPolicy where
  | DangerFullAccess
  | ExternalSandbox (network_access : NetworkAccess)
  | ReadOnly (access : ReadOnlyAccess)
  | WorkspaceWrite (writable_roots : List MPath) (read_only_access : ReadOnlyAccess)
      (network_access : Bool) (exclude_tmpdir_env_var : Bool) (exclude_slash_tmp : Bool)
deriving DecidableEq

/-- Modelled from the spec: `SandboxPolicy::has_full_network_access` is
defined in the protocol crate, outside the sources at hand.  The spec
states that the merge "grants network only if both grant it", that
`ExternalSandbox` carries `network: Enabled|Restricted`, that
`WorkspaceWrite` carries a boolean `network`, and that a `ReadOnly`
policy "carries no network grant". -/
def hasFullNetworkAccess : SandboxPolicy → Bool
  | SandboxPolicy.DangerFullAccess => true
  | SandboxPolicy.ExternalSandbox na => na == NetworkAccess.Enabled
  | SandboxPolicy.ReadOnly _ => false
  | SandboxPolicy.WorkspaceWrite _ _ network_access _ _ => network_access

/-- Modelled from the spec: `SandboxPolicy::new_read_only_policy` is
defined in the protocol crate, outside the sources at hand.  The spec
describes it as "the default minimal read-only policy (no extra roots,
only platform defaults)". -/
def new_read_only_policy : SandboxPolicy :=
  SandboxPolicy.ReadOnly (ReadOnlyAccess.Restricted true [])

/-- The approval-policy variants. -/
inductive AskForApproval where
  | OnFailure
  | OnRequest
  | UnlessTrusted
  | Never
deriving DecidableEq

/-- Embedding of `approval_policy_rank`. -/
def approval_policy_rank : AskForApproval → Nat
  | AskForApproval.OnFailure => 0
  | AskForApproval.OnRequest => 1
  | AskForApproval.UnlessTrusted => 2
  | AskForApproval.Never => 3

/-- Embedding of `stricter_approval_policy`. -/
def stricter_approval_policy (lhs rhs : AskForApproval) : AskForApproval :=
  if approval_policy_rank lhs ≥ approval_policy_rank rhs then lhs else rhs

/-- Embedding of the `WriteAccessKind` enum. -/
inductive WriteAccessKind where
  | FullAccess
  | WorkspaceWrite
  | ReadOnly
deriving DecidableEq

/-- The `#[repr]` discriminants used by the derived `Ord` of
`WriteAccessKind` (`FullAccess(0) < WorkspaceWrite(1) < ReadOnly(2)`). -/
def wakRank : WriteAccessKind → Nat
  | WriteAccessKind.FullAccess => 0
  | WriteAccessKind.WorkspaceWrite => 1
  | WriteAccessKind.ReadOnly => 2

/-- `std::cmp::max` on `WriteAccessKind` (returns the second argument on
ties, which is irrelevant on a discriminant order). -/
def wakMax (a b : WriteAccessKind) : WriteAccessKind :=
  if wakRank b ≥ wakRank a then b else a

/-- Embedding of `write_access_kind`. -/
def write_access_kind : SandboxPolicy → WriteAccessKind
  | SandboxPolicy.DangerFullAccess => WriteAccessKind.FullAccess
  | SandboxPolicy.ExternalSandbox _ => WriteAccessKind.FullAccess
  | SandboxPolicy.WorkspaceWrite _ _ _ _ _ => WriteAccessKind.WorkspaceWrite
  | SandboxPolicy.ReadOnly _ => WriteAccessKind.ReadOnly

/-- `matches!(p, SandboxPolicy::ExternalSandbox { .. })`. -/
def isExternalSandboxPolicy : SandboxPolicy → Bool
  | SandboxPolicy.ExternalSandbox _ => true
  | _ => false

/-- Embedding of `WorkspacePolicyParts`. -/
structure WorkspacePolicyParts where
  writable_roots : List MPath
  exclude_tmpdir_env_var : Bool
  exclude_slash_tmp : Bool
deriving DecidableEq

/-- Embedding of `workspace_policy_parts`. -/
def workspace_policy_parts : SandboxPolicy → Option WorkspacePolicyParts
  | SandboxPolicy.WorkspaceWrite writable_roots _ _ exclude_tmpdir_env_var exclude_slash_tmp =>
    some { writable_roots, exclude_tmpdir_env_var, exclude_slash_tmp }
  | _ => none

/-- The candidate kept by one iteration of the root-intersection loop:
keep the left root if it descends from (or equals) the right one, keep
the right root if it descends from the left one, otherwise nothing. -/
def rootCandidate (left right : MPath) : Option MPath :=
  if mpStartsWith left right then some left
  else if mpStartsWith right left then some right
  else none

/-- Embedding of `intersect_absolute_roots`.  The source threads a
`seen` hash set alongside the output vector; since both always receive
exactly the same elements, the accumulator list serves as both. -/
def intersect_absolute_roots (lhs rhs : List MPath) : List MPath :=
  lhs.foldl (fun acc left =>
    rhs.foldl (fun acc right =>
      match rootCandidate left right with
      | some c => if c ∈ acc then acc else acc ++ [c]
      | none => acc) acc) []

/-- Embedding of `merge_workspace_roots`. -/
def merge_workspace_roots (lhs rhs : Option (List MPath)) : List MPath :=
  match lhs, rhs with
  | some lhs, some rhs => intersect_absolute_roots lhs rhs
  | some lhs, none => lhs
  | none, some rhs => rhs
  | none, none => []

/-- Embedding of `read_access_for_policy`. -/
def read_access_for_policy : SandboxPolicy → ReadOnlyAccess
  | SandboxPolicy.DangerFullAccess => ReadOnlyAccess.FullAccess
  | SandboxPolicy.ExternalSandbox _ => ReadOnlyAccess.FullAccess
  | SandboxPolicy.ReadOnly access => access
  | SandboxPolicy.WorkspaceWrite _ read_only_access _ _ _ => read_only_access

/-- Embedding of `merge_read_only_access`. -/
def merge_read_only_access : ReadOnlyAccess → ReadOnlyAccess → ReadOnlyAccess
  | ReadOnlyAccess.FullAccess, access => access
  | access, ReadOnlyAccess.FullAccess => access
  | ReadOnlyAccess.Restricted lhs_defaults lhs_roots,
      ReadOnlyAccess.Restricted rhs_defaults rhs_roots =>
    ReadOnlyAccess.Restricted (lhs_defaults && rhs_defaults)
      (intersect_absolute_roots lhs_roots rhs_roots)

/-- Embedding of `merge_sandbox_policies`. -/
def merge_sandbox_policies (lhs rhs : SandboxPolicy) : SandboxPolicy :=
  let network_access := hasFullNetworkAccess lhs && hasFullNetworkAccess rhs
  let strictest_write := wakMax (write_access_kind lhs) (write_access_kind rhs)
  let read_access :=
    merge_read_only_access (read_access_for_policy lhs) (read_access_for_policy rhs)
  match strictest_write with
  | WriteAccessKind.ReadOnly => SandboxPolicy.ReadOnly read_access
  | WriteAccessKind.WorkspaceWrite =>
    let lhs_workspace := workspace_policy_parts lhs
    let rhs_workspace := workspace_policy_parts rhs
    SandboxPolicy.WorkspaceWrite
      (merge_workspace_roots (lhs_workspace.map (fun parts => parts.writable_roots))
        (rhs_workspace.map (fun parts => parts.writable_roots)))
      read_access
      network_access
      (lhs_workspace.any (fun parts => parts.exclude_tmpdir_env_var)
        || rhs_workspace.any (fun parts => parts.exclude_tmpdir_env_var))
      (lhs_workspace.any (fun parts => parts.exclude_slash_tmp)
        || rhs_workspace.any (fun parts => parts.exclude_slash_tmp))
  | WriteAccessKind.FullAccess =>
    if network_access then
      if isExternalSandboxPolicy lhs || isExternalSandboxPolicy rhs then
        SandboxPolicy.ExternalSandbox NetworkAccess.Enabled
      else
        SandboxPolicy.DangerFullAccess
    else
      SandboxPolicy.ExternalSandbox NetworkAccess.Restricted


/- The environment of operating-system and out-of-scope collaborators. -/

/-- The external collaborators of the path normalizer and the skill
matcher: `home` is `dirs::home_dir` rendered as a string; `parsePath` is
`PathBuf::from` on a string; `canon` is `dunce::canonicalize`, returning
`none` on failure; `shellPlainCommands` and `shellCommandHead` are the two
shell re-parsers from `crate::bash` (out-of-scope collaborators per the
spec, consumed through their interface only). -/
structure PathEnv where
  home : Option String
  parsePath : String → MPath
  canon : MPath → Option MPath
  shellPlainCommands : List String → Option (List (List String))
  shellCommandHead : List String → Option (List String)

/-- Embedding of `normalize_runtime_absolute_path`: lexical normalize,
attempt canonicalization with fallback to the lexical result, then
require the outcome to be absolute (`AbsolutePathBuf::from_absolute_path`). -/
def normalize_runtime_absolute_path (env : PathEnv) (path : MPath) : Option MPath :=
  let normalized := normalize_lexically path
  let canonicalized := (env.canon normalized).getD normalized
  if canonicalized.absolute then some canonicalized else none

/- The macOS seatbelt profile extension block. -/

/-- The `permissions.macos.preferences` manifest value. -/
inductive MacOsPreferencesValue where
  | Bool (value : Bool)
  | Mode (mode : String)
deriving DecidableEq

/-- The `permissions.macos.automations` manifest value. -/
inductive MacOsAutomationValue where
  | Bool (value : Bool)
  | BundleIds (bundle_ids : List String)
deriving DecidableEq

/-- The compiled preferences permission, from `crate::seatbelt_permissions`. -/
inductive MacOsPreferencesPermission where
  | NoAccess
  | ReadOnly
  | ReadWrite
deriving DecidableEq

/-- The compiled automation permission, from `crate::seatbelt_permissions`. -/
inductive MacOsAutomationPermission where
  | NoAccess
  | All
  | BundleIds (bundle_ids : List String)
deriving DecidableEq

/-- The compiled macOS extension block (`MacOsSeatbeltProfileExtensions`). -/
structure MacOsSeatbeltProfileExtensions where
  macos_preferences : MacOsPreferencesPermission
  macos_automation : MacOsAutomationPermission
  macos_accessibility : Bool
  macos_calendar : Bool
deriving DecidableEq

/-- Modelled from the spec: the `Default` instance of
`MacOsSeatbeltProfileExtensions` lives in `crate::seatbelt_permissions`,
outside the sources at hand.  No claim inspects these values; the most
restrictive reading is used. -/
def defaultMacOsSeatbeltProfileExtensions : MacOsSeatbeltProfileExtensions :=
  { macos_preferences := MacOsPreferencesPermission.NoAccess,
    macos_automation := MacOsAutomationPermission.NoAccess,
    macos_accessibility := false,
    macos_calendar := false }

/-- Embedding of `resolve_macos_preferences_permission`. -/
def resolve_macos_preferences_permission (value : Option MacOsPreferencesValue)
    (default : MacOsPreferencesPermission) : MacOsPreferencesPermission :=
  match value with
  | some (MacOsPreferencesValue.Bool true) => MacOsPreferencesPermission.ReadOnly
  | some (MacOsPreferencesValue.Bool false) => MacOsPreferencesPermission.NoAccess
  | some (MacOsPreferencesValue.Mode mode) =>
    let mode := strTrim mode
    if eqIgnoreAsciiCase mode "readonly" || eqIgnoreAsciiCase mode "read-only" then
      MacOsPreferencesPermission.ReadOnly
    else if eqIgnoreAsciiCase mode "readwrite" || eqIgnoreAsciiCase mode "read-write" then
      MacOsPreferencesPermission.ReadWrite
    else
      MacOsPreferencesPermission.NoAccess
  | none => default

/-- Embedding of `resolve_macos_automation_permission`. -/
def resolve_macos_automation_permission (value : Option MacOsAutomationValue)
    (default : MacOsAutomationPermission) : MacOsAutomationPermission :=
  match value with
  | some (MacOsAutomationValue.Bool true) => MacOsAutomationPermission.All
  | some (MacOsAutomationValue.Bool false) => MacOsAutomationPermission.NoAccess
  | some (MacOsAutomationValue.BundleIds bundle_ids) =>
    let bundle_ids := (bundle_ids.map strTrim).filter (fun b => !strIsEmpty b)
    if bundle_ids.isEmpty then MacOsAutomationPermission.NoAccess
    else MacOsAutomationPermission.BundleIds bundle_ids
  | none => default

/-- The `permissions.macos` manifest block. -/
structure SkillManifestMacOsPermissions where
  preferences : Option MacOsPreferencesValue
  automations : Option MacOsAutomationValue
  accessibility : Bool
  calendar : Bool
deriving DecidableEq

/-- Embedding of `build_macos_seatbelt_profile_extensions` (the macOS
configuration of the source, which is the substantive one). -/
def build_macos_seatbelt_profile_extensions (permissions : SkillManifestMacOsPermissions) :
    Option MacOsSeatbeltProfileExtensions :=
  let defaults := defaultMacOsSeatbeltProfileExtensions
  some
    { macos_preferences :=
        resolve_macos_preferences_permission permissions.preferences defaults.macos_preferences,
      macos_automation :=
        resolve_macos_automation_permission permissions.automations defaults.macos_automation,
      macos_accessibility := permissions.accessibility,
      macos_calendar := permissions.calendar }

/- The skill manifest and the compiled capability profile. -/

/-- The `permissions.file_system` manifest block. -/
structure SkillManifestFileSystemPermissions where
  read : List String
  write : List String
deriving DecidableEq

/-- The raw skill manifest permissions block. -/
structure SkillManifestPermissions where
  network : Bool
  file_system : SkillManifestFileSystemPermissions
  macos : SkillManifestMacOsPermissions
deriving DecidableEq

/-- The compiled capability profile (`crate::config::Permissions`,
restricted to the fields read by the code under verification; the
`Constrained` wrapper, which `compile_permission_profile` builds with
`allow_any` and the resolver reads back with `value`/`get`, is the
identity on those fields and is elided). -/
structure Permissions where
  approval_policy : AskForApproval
  sandbox_policy : SandboxPolicy
  macos_seatbelt_profile_extensions : Option MacOsSeatbeltProfileExtensions
deriving DecidableEq

/-- Embedding of `normalize_permission_path`: trim, expand the home
prefix, resolve relative to the skill directory, normalize lexically,
attempt canonicalization with fallback, require the result absolute;
`none` models the warn-and-drop outcome. -/
def normalize_permission_path (env : PathEnv) (skill_dir : MPath) (value : String) :
    Option MPath :=
  let trimmed := strTrim value
  if strIsEmpty trimmed then none
  else
    let expanded := expand_home env.home trimmed
    let path := env.parsePath expanded
    let absolute := if path.absolute then path else mpJoin skill_dir path
    let normalized := normalize_lexically absolute
    let canonicalized := (env.canon normalized).getD normalized
    if canonicalized.absolute then some canonicalized else none

/-- Embedding of `normalize_permission_paths`: drop unresolvable entries,
deduplicate keeping the first occurrence. -/
def normalize_permission_paths (env : PathEnv) (skill_dir : MPath) (values : List String) :
    List MPath :=
  values.foldl (fun acc value =>
    match normalize_permission_path env skill_dir value with
    | some path => if path ∈ acc then acc else acc ++ [path]
    | none => acc) []

/-- Embedding of `compile_permission_profile`. -/
def compile_permission_profile (env : PathEnv) (skill_dir : MPath)
    (permissions : Option SkillManifestPermissions) : Option Permissions :=
  match permissions with
  | none => none
  | some permissions =>
    let fs_read := normalize_permission_paths env skill_dir permissions.file_system.read
    let fs_write := normalize_permission_paths env skill_dir permissions.file_system.write
    let sandbox_policy :=
      if !fs_write.isEmpty then
        SandboxPolicy.WorkspaceWrite
          fs_write
          (if fs_read.isEmpty then ReadOnlyAccess.FullAccess
           else ReadOnlyAccess.Restricted true fs_read)
          permissions.network
          false
          false
      else if !fs_read.isEmpty then
        SandboxPolicy.ReadOnly (ReadOnlyAccess.Restricted true fs_read)
      else
        new_read_only_policy
    some
      { approval_policy := AskForApproval.Never,
        sandbox_policy,
        macos_seatbelt_profile_extensions :=
          build_macos_seatbelt_profile_extensions permissions.macos }

/- The skill matcher and the effective-permission resolver. -/

/-- The skill record consumed by the matcher (`SkillMetadata`, restricted
to the fields the matcher reads: the definition-file path and the
compiled profile). -/
structure SkillMetadata where
  path : MPath
  permission_profile : Option Permissions
deriving DecidableEq

/-- Embedding of `MatchedSkillPermissionProfile`. -/
structure MatchedSkillPermissionProfile where
  profile : Permissions
  skill_dir : MPath
deriving DecidableEq

/-- Embedding of `add_token_path_candidates`: empty or URL-like tokens
contribute nothing; flag-style tokens contribute only the value half of
`=`; otherwise path-like tokens contribute themselves. -/
def add_token_path_candidates (token : String) : List String :=
  let trimmed := strTrim token
  if strIsEmpty trimmed || strHasSub trimmed "://" then []
  else if strStartsWith trimmed "-" then
    match splitOnceChar trimmed '=' with
    | some (_, value) =>
      if !strIsEmpty (strTrim value) && !strHasSub value "://" then [value] else []
    | none => []
  else if strStartsWith trimmed "." || strStartsWith trimmed "~"
      || strContainsChar trimmed '/' || strContainsChar trimmed '\\' then
    [trimmed]
  else []

/-- Embedding of `normalize_runtime_token_path`. -/
def normalize_runtime_token_path (env : PathEnv) (token : String) (command_cwd : MPath) :
    Option MPath :=
  let expanded := expand_home env.home token
  let token_path := env.parsePath expanded
  let absolute := if token_path.absolute then token_path else mpJoin command_cwd token_path
  normalize_runtime_absolute_path env absolute

/-- Embedding of `collect_paths_from_tokens`; as in
`intersect_absolute_roots`, the `seen` set and the output vector always
hold the same elements and are fused into one accumulator. -/
def collect_paths_from_tokens (env : PathEnv) (tokens : List String) (command_cwd : MPath)
    (acc : List MPath) : List MPath :=
  tokens.foldl (fun acc token =>
    (add_token_path_candidates token).foldl (fun acc candidate =>
      match normalize_runtime_token_path env candidate command_cwd with
      | some path => if path ∈ acc then acc else acc ++ [path]
      | none => acc) acc) acc

/-- Embedding of `collect_command_paths`: the literal tokens, then the
top-level plain sub-commands, then the single leading command head, all
sharing one deduplicating accumulator. -/
def collect_command_paths (env : PathEnv) (command : List String) (command_cwd : MPath) :
    List MPath :=
  let paths := collect_paths_from_tokens env command command_cwd []
  let paths :=
    match env.shellPlainCommands command with
    | some commands =>
      commands.foldl (fun acc parsed => collect_paths_from_tokens env parsed command_cwd acc) paths
    | none => paths
  match env.shellCommandHead command with
  | some parsed => collect_paths_from_tokens env parsed command_cwd paths
  | none => paths

/-- Embedding of `count_path_components` (the root marker counts as one
component, as in `Path::components`). -/
def count_path_components (p : MPath) : Nat :=
  (if p.absolute then 1 else 0) + p.comps.length

/-- Ordering on path components, as in the derived `Ord` of
`std::path::Component` restricted to the components we model. -/
def pcompCmp : PComp → PComp → Ordering
  | PComp.cur, PComp.cur => Ordering.eq
  | PComp.cur, _ => Ordering.lt
  | PComp.parent, PComp.cur => Ordering.gt
  | PComp.parent, PComp.parent => Ordering.eq
  | PComp.parent, PComp.normal _ => Ordering.lt
  | PComp.normal _, PComp.cur => Ordering.gt
  | PComp.normal _, PComp.parent => Ordering.gt
  | PComp.normal a, PComp.normal b => compare a b

/-- Lexicographic ordering of component lists. -/
def listCmp (f : α → α → Ordering) : List α → List α → Ordering
  | [], [] => Ordering.eq
  | [], _ :: _ => Ordering.lt
  | _ :: _, [] => Ordering.gt
  | a :: as, b :: bs =>
    match f a b with
    | Ordering.eq => listCmp f as bs
    | o => o

/-- The derived `Ord` of `std::path::Path` (component-sequence order; a
root component sorts below any normal component). -/
def mpathCmp (a b : MPath) : Ordering :=
  match a.absolute, b.absolute with
  | true, true => listCmp pcompCmp a.comps b.comps
  | false, false => listCmp pcompCmp a.comps b.comps
  | true, false => if b.comps.isEmpty then Ordering.gt else Ordering.lt
  | false, true => if a.comps.isEmpty then Ordering.lt else Ordering.gt

/-- Embedding of `compare_path_specificity`: component count first, then
the deterministic lexical path order. -/
def compare_path_specificity (lhs rhs : MPath) : Ordering :=
  match compare (count_path_components lhs) (count_path_components rhs) with
  | Ordering.eq => mpathCmp lhs rhs
  | o => o

/-- `Iterator::max_by`: fold keeping the later element on ties. -/
def maxByCmp (cmp : α → α → Ordering) (l : List α) : Option α :=
  l.foldl (fun acc x =>
    match acc with
    | none => some x
    | some m =>
      match cmp m x with
      | Ordering.gt => some m
      | _ => some x) none

/-- The per-skill closure of `find_matching_skill_permission_profile`:
skip disabled skills and skills without a compiled profile, then test
whether the command cwd or any collected command path falls below the
directory of the skill. -/
def skill_candidate (env : PathEnv) (normalized_command_cwd : MPath)
    (command_paths : List MPath) (disabled_paths : List MPath) (skill : SkillMetadata) :
    Option MatchedSkillPermissionProfile :=
  if skill.path ∈ disabled_paths then none
  else
    match skill.permission_profile with
    | none => none
    | some profile =>
      match mpParent skill.path with
      | none => none
      | some skill_dir =>
        match normalize_runtime_absolute_path env skill_dir with
        | none => none
        | some normalized_skill_dir =>
          let matches_cwd := mpStartsWith normalized_command_cwd normalized_skill_dir
          let matches_path :=
            command_paths.any (fun path => mpStartsWith path normalized_skill_dir)
          if !matches_cwd && !matches_path then none
          else some { profile, skill_dir := normalized_skill_dir }

/-- Embedding of `find_matching_skill_permission_profile`. -/
def find_matching_skill_permission_profile (env : PathEnv) (command : List String)
    (command_cwd : MPath) (skills : List SkillMetadata) (disabled_paths : List MPath) :
    Option MatchedSkillPermissionProfile :=
  match normalize_runtime_absolute_path env command_cwd with
  | none => none
  | some normalized_command_cwd =>
    let command_paths := collect_command_paths env command normalized_command_cwd
    let candidates :=
      skills.filterMap (skill_candidate env normalized_command_cwd command_paths disabled_paths)
    maxByCmp (fun l r => compare_path_specificity l.skill_dir r.skill_dir) candidates

/-- Embedding of `EffectiveCommandPermissions`. -/
structure EffectiveCommandPermissions where
  approval_policy : AskForApproval
  sandbox_policy : SandboxPolicy
  sandbox_cwd : MPath
  macos_seatbelt_profile_extensions : Option MacOsSeatbeltProfileExtensions
deriving DecidableEq

/-- Embedding of `resolve_effective_command_permissions`. -/
def resolve_effective_command_permissions (env : PathEnv) (command : List String)
    (command_cwd : MPath) (turn_approval_policy : AskForApproval)
    (turn_sandbox_policy : SandboxPolicy) (turn_sandbox_cwd : MPath)
    (turn_macos_seatbelt_profile_extensions : Option MacOsSeatbeltProfileExtensions)
    (skills : List SkillMetadata) (disabled_paths : List MPath) :
    EffectiveCommandPermissions :=
  let effective : EffectiveCommandPermissions :=
    { approval_policy := turn_approval_policy,
      sandbox_policy := turn_sandbox_policy,
      sandbox_cwd := turn_sandbox_cwd,
      macos_seatbelt_profile_extensions := turn_macos_seatbelt_profile_extensions }
  match find_matching_skill_permission_profile env command command_cwd skills disabled_paths with
  | none => effective
  | some matched_skill =>
    { approval_policy :=
        stricter_approval_policy effective.approval_policy matched_skill.profile.approval_policy,
      sandbox_policy :=
        merge_sandbox_policies effective.sandbox_policy matched_skill.profile.sandbox_policy,
      sandbox_cwd := matched_skill.skill_dir,
      macos_seatbelt_profile_extensions :=
        match matched_skill.profile.macos_seatbelt_profile_extensions with
        | some extensions => some extensions
        | none => effective.macos_seatbelt_profile_extensions }

/- Lemmas about the root-intersection algorithm. -/

theorem mpStartsWith_self (p : MPath) : mpStartsWith p p = true := by
  simp [mpStartsWith, List.isPrefixOf_iff_prefix]

theorem eq_of_mpStartsWith_both {a b : MPath} (h1 : mpStartsWith a b = true)
    (h2 : mpStartsWith b a = true) : a = b := by
  unfold mpStartsWith at h1 h2
  simp only [Bool.and_eq_true, beq_iff_eq, List.isPrefixOf_iff_prefix] at h1 h2
  rcases h1 with ⟨habs, hpre1⟩
  rcases h2 with ⟨_, hpre2⟩
  cases a
  cases b
  simp_all only [MPath.mk.injEq, true_and]
  exact hpre2.eq_of_length (hpre2.length_le.antisymm hpre1.length_le)

theorem rootCandidate_self (x : MPath) : rootCandidate x x = some x := by
  simp [rootCandidate, mpStartsWith_self]

theorem rootCandidate_comm (l r : MPath) : rootCandidate l r = rootCandidate r l := by
  unfold rootCandidate
  by_cases h1 : mpStartsWith l r = true <;> by_cases h2 : mpStartsWith r l = true <;>
    simp [h1, h2]
  exact eq_of_mpStartsWith_both h1 h2

theorem rootCandidate_eq_some {l r x : MPath} (h : rootCandidate l r = some x) :
    (x = l ∨ x = r) ∧ mpStartsWith x l = true ∧ mpStartsWith x r = true := by
  unfold rootCandidate at h
  by_cases h1 : mpStartsWith l r = true
  · have hx : l = x := by simpa [h1] using h
    subst hx
    exact ⟨Or.inl rfl, mpStartsWith_self l, h1⟩
  · by_cases h2 : mpStartsWith r l = true
    · have hx : r = x := by simpa [h1, h2] using h
      subst hx
      exact ⟨Or.inr rfl, h2, mpStartsWith_self r⟩
    · simp [h1, h2] at h

/-- The inner loop of `intersect_absolute_roots`, named so that its
membership behaviour can be characterised on its own. -/
def intersectInner (left : MPath) (rhs : List MPath) (acc : List MPath) : List MPath :=
  rhs.foldl (fun acc right =>
    match rootCandidate left right with
    | some c => if c ∈ acc then acc else acc ++ [c]
    | none => acc) acc

theorem intersect_absolute_roots_eq_fold (lhs rhs : List MPath) :
    intersect_absolute_roots lhs rhs = lhs.foldl (fun acc left => intersectInner left rhs acc) [] := by
  rfl

theorem mem_intersectInner {left : MPath} {rhs acc : List MPath} {x : MPath} :
    x ∈ intersectInner left rhs acc ↔
      x ∈ acc ∨ ∃ r ∈ rhs, rootCandidate left r = some x := by
  induction rhs generalizing acc with
  | nil => simp [intersectInner]
  | cons r rest ih =>
    show x ∈ intersectInner left rest _ ↔ _
    rw [ih]
    cases hc : rootCandidate left r with
    | none =>
      simp only [hc, List.mem_cons]
      constructor
      · rintro (hx | ⟨r', hr', hcand⟩)
        · exact Or.inl hx
        · exact Or.inr ⟨r', Or.inr hr', hcand⟩
      · rintro (hx | ⟨r', hr' | hr', hcand⟩)
        · exact Or.inl hx
        · subst hr'; rw [hc] at hcand; cases hcand
        · exact Or.inr ⟨r', hr', hcand⟩
    | some c =>
      by_cases hmem : c ∈ acc
      · simp only [hc, if_pos hmem]
        constructor
        · rintro (hx | ⟨r', hr', hcand⟩)
          · exact Or.inl hx
          · exact Or.inr ⟨r', List.mem_cons_of_mem _ hr', hcand⟩
        · rintro (hx | ⟨r', hr', hcand⟩)
          · exact Or.inl hx
          · rcases List.mem_cons.mp hr' with hr' | hr'
            · subst hr'
              rw [hc] at hcand
              cases hcand
              exact Or.inl hmem
            · exact Or.inr ⟨r', hr', hcand⟩
      · simp only [hc, if_neg hmem]
        constructor
        · rintro (hx | ⟨r', hr', hcand⟩)
          · rcases List.mem_append.mp hx with hx | hx
            · exact Or.inl hx
            · rcases List.mem_singleton.mp hx with rfl
              exact Or.inr ⟨r, List.mem_cons_self r rest, hc⟩
          · exact Or.inr ⟨r', List.mem_cons_of_mem _ hr', hcand⟩
        · rintro (hx | ⟨r', hr', hcand⟩)
          · exact Or.inl (List.mem_append.mpr (Or.inl hx))
          · rcases List.mem_cons.mp hr' with hr' | hr'
            · subst hr'
              rw [hc] at hcand
              cases hcand
              exact Or.inl (List.mem_append.mpr (Or.inr (List.mem_singleton.mpr rfl)))
            · exact Or.inr ⟨r', hr', hcand⟩

theorem mem_intersectOuter {lhs rhs acc : List MPath} {x : MPath} :
    x ∈ lhs.foldl (fun acc left => intersectInner left rhs acc) acc ↔
      x ∈ acc ∨ ∃ l ∈ lhs, ∃ r ∈ rhs, rootCandidate l r = some x := by
  induction lhs generalizing acc with
  | nil => simp
  | cons l rest ih =>
    show x ∈ rest.foldl _ (intersectInner l rhs acc) ↔ _
    rw [ih, mem_intersectInner]
    constructor
    · rintro ((hx | ⟨r, hr, hcand⟩) | ⟨l', hl', r, hr, hcand⟩)
      · exact Or.inl hx
      · exact Or.inr ⟨l, List.mem_cons_self l rest, r, hr, hcand⟩
      · exact Or.inr ⟨l', List.mem_cons_of_mem _ hl', r, hr, hcand⟩
    · rintro (hx | ⟨l', hl', r, hr, hcand⟩)
      · exact Or.inl (Or.inl hx)
      · rcases List.mem_cons.mp hl' with hl' | hl'
        · subst hl'
          exact Or.inl (Or.inr ⟨r, hr, hcand⟩)
        · exact Or.inr ⟨l', hl', r, hr, hcand⟩

theorem mem_intersect_absolute_roots {lhs rhs : List MPath} {x : MPath} :
    x ∈ intersect_absolute_roots lhs rhs ↔
      ∃ l ∈ lhs, ∃ r ∈ rhs, rootCandidate l r = some x := by
  rw [intersect_absolute_roots_eq_fold, mem_intersectOuter]
  simp

theorem mem_intersect_self {s : List MPath} {x : MPath} :
    x ∈ intersect_absolute_roots s s ↔ x ∈ s := by
  rw [mem_intersect_absolute_roots]
  constructor
  · rintro ⟨l, hl, r, hr, hcand⟩
    rcases (rootCandidate_eq_some hcand).1 with rfl | rfl
    · exact hl
    · exact hr
  · intro hx
    exact ⟨x, hx, x, hx, rootCandidate_self x⟩

theorem mem_intersect_comm {a b : List MPath} {x : MPath} :
    x ∈ intersect_absolute_roots a b ↔ x ∈ intersect_absolute_roots b a := by
  rw [mem_intersect_absolute_roots, mem_intersect_absolute_roots]
  constructor
  · rintro ⟨l, hl, r, hr, hcand⟩
    exact ⟨r, hr, l, hl, (rootCandidate_comm r l).trans hcand⟩
  · rintro ⟨l, hl, r, hr, hcand⟩
    exact ⟨r, hr, l, hl, (rootCandidate_comm r l).trans hcand⟩

/- Set-level equivalence of policies: same shape and scalar fields, root
lists equal as sets. -/

/-- Two root lists holding the same set of roots. -/
def rootsSetEq (a b : List MPath) : Prop :=
  ∀ x, x ∈ a ↔ x ∈ b

/-- Read-access equivalence up to the order of the readable roots. -/
def readAccessSetEq : ReadOnlyAccess → ReadOnlyAccess → Prop
  | ReadOnlyAccess.FullAccess, ReadOnlyAccess.FullAccess => True
  | ReadOnlyAccess.Restricted d1 r1, ReadOnlyAccess.Restricted d2 r2 =>
    d1 = d2 ∧ rootsSetEq r1 r2
  | _, _ => False

/-- Policy equivalence up to the order of the root lists: same variant,
equal scalar fields, and readable/writable root lists equal as sets. -/
def policySetEq : SandboxPolicy → SandboxPolicy → Prop
  | SandboxPolicy.DangerFullAccess, SandboxPolicy.DangerFullAccess => True
  | SandboxPolicy.ExternalSandbox n1, SandboxPolicy.ExternalSandbox n2 => n1 = n2
  | SandboxPolicy.ReadOnly a1, SandboxPolicy.ReadOnly a2 => readAccessSetEq a1 a2
  | SandboxPolicy.WorkspaceWrite w1 ra1 n1 e1 s1, SandboxPolicy.WorkspaceWrite w2 ra2 n2 e2 s2 =>
    rootsSetEq w1 w2 ∧ readAccessSetEq ra1 ra2 ∧ n1 = n2 ∧ e1 = e2 ∧ s1 = s2
  | _, _ => False

theorem rootsSetEq_refl (a : List MPath) : rootsSetEq a a := fun _ => Iff.rfl

theorem readAccessSetEq_refl (a : ReadOnlyAccess) : readAccessSetEq a a := by
  cases a with
  | FullAccess => trivial
  | Restricted d r => exact ⟨rfl, rootsSetEq_refl r⟩

theorem policySetEq_refl (p : SandboxPolicy) : policySetEq p p := by
  cases p with
  | DangerFullAccess => trivial
  | ExternalSandbox n => rfl
  | ReadOnly a => exact readAccessSetEq_refl a
  | WorkspaceWrite w ra n e s =>
    exact ⟨rootsSetEq_refl w, readAccessSetEq_refl ra, rfl, rfl, rfl⟩

theorem merge_read_only_access_self (a : ReadOnlyAccess) :
    readAccessSetEq (merge_read_only_access a a) a := by
  cases a with
  | FullAccess => trivial
  | Restricted d r =>
    refine ⟨Bool.and_self d, ?_⟩
    intro x
    exact mem_intersect_self

theorem merge_read_only_access_comm (a b : ReadOnlyAccess) :
    readAccessSetEq (merge_read_only_access a b) (merge_read_only_access b a) := by
  cases a with
  | FullAccess =>
    cases b with
    | FullAccess => trivial
    | Restricted d r => exact ⟨rfl, rootsSetEq_refl r⟩
  | Restricted d1 r1 =>
    cases b with
    | FullAccess => exact ⟨rfl, rootsSetEq_refl r1⟩
    | Restricted d2 r2 =>
      refine ⟨Bool.and_comm d1 d2, ?_⟩
      intro x
      exact mem_intersect_comm


/- Sample concrete paths used by witnesses and counterexamples. -/

/-- The absolute path `/a`. -/
def mpA : MPath := ⟨true, [PComp.normal "a"]⟩

/-- The absolute path `/b`. -/
def mpB : MPath := ⟨true, [PComp.normal "b"]⟩

/-- The absolute path `/a/c`. -/
def mpAC : MPath := ⟨true, [PComp.normal "a", PComp.normal "c"]⟩

/-- The absolute path `/a/b`. -/
def mpAB : MPath := ⟨true, [PComp.normal "a", PComp.normal "b"]⟩

theorem wakMax_comm (a b : WriteAccessKind) : wakMax a b = wakMax b a := by
  cases a <;> cases b <;> rfl

theorem merge_workspace_roots_comm_mem (a b : Option (List MPath)) (x : MPath) :
    x ∈ merge_workspace_roots a b ↔ x ∈ merge_workspace_roots b a := by
  cases a with
  | none => cases b <;> simp [merge_workspace_roots]
  | some l =>
    cases b with
    | none => simp [merge_workspace_roots]
    | some r => exact mem_intersect_comm

theorem merge_comm_setEq (A B : SandboxPolicy) :
    policySetEq (merge_sandbox_policies A B) (merge_sandbox_policies B A) := by
  unfold merge_sandbox_policies
  rw [wakMax_comm (write_access_kind B) (write_access_kind A)]
  cases hm : wakMax (write_access_kind A) (write_access_kind B) with
  | ReadOnly => exact merge_read_only_access_comm _ _
  | WorkspaceWrite =>
    exact ⟨fun x => merge_workspace_roots_comm_mem _ _ x,
      merge_read_only_access_comm _ _, Bool.and_comm _ _, Bool.or_comm _ _, Bool.or_comm _ _⟩
  | FullAccess =>
    rw [Bool.and_comm (hasFullNetworkAccess B) (hasFullNetworkAccess A),
      Bool.or_comm (isExternalSandboxPolicy B) (isExternalSandboxPolicy A)]
    exact policySetEq_refl _

theorem policySetEq_hasFullNetworkAccess {p q : SandboxPolicy} (h : policySetEq p q) :
    hasFullNetworkAccess p = hasFullNetworkAccess q := by
  cases p <;> cases q <;> simp_all [policySetEq, hasFullNetworkAccess]

theorem policySetEq_write_access_kind {p q : SandboxPolicy} (h : policySetEq p q) :
    write_access_kind p = write_access_kind q := by
  cases p <;> cases q <;> simp_all [policySetEq, write_access_kind]

/-- C6: for every pair of sandbox policies, merging in either order
grants the same network access, produces the same write-access kind and
policy shape, and yields the same readable and writable root sets
(root-intersection is commutative up to order). -/
theorem C6_merge_commutative (A B : SandboxPolicy) :
    hasFullNetworkAccess (merge_sandbox_policies A B)
        = hasFullNetworkAccess (merge_sandbox_policies B A)
      ∧ write_access_kind (merge_sandbox_policies A B)
        = write_access_kind (merge_sandbox_policies B A)
      ∧ policySetEq (merge_sandbox_policies A B) (merge_sandbox_policies B A) :=
  ⟨policySetEq_hasFullNetworkAccess (merge_comm_setEq A B),
    policySetEq_write_access_kind (merge_comm_setEq A B), merge_comm_setEq A B⟩

/-- Closed instance of `C6_merge_commutative` at concrete policies. -/
theorem C6_merge_commutative_witness :
    policySetEq
      (merge_sandbox_policies SandboxPolicy.DangerFullAccess
        (SandboxPolicy.ReadOnly (ReadOnlyAccess.Restricted true [mpA])))
      (merge_sandbox_policies (SandboxPolicy.ReadOnly (ReadOnlyAccess.Restricted true [mpA]))
        SandboxPolicy.DangerFullAccess) :=
  (C6_merge_commutative SandboxPolicy.DangerFullAccess
    (SandboxPolicy.ReadOnly (ReadOnlyAccess.Restricted true [mpA]))).2.2

/-- C5 (counterexample): `merge(A, A)` is not literally `A` for every
policy shape; with the root list `[/a, /b, /a/c]` the self-intersection
re-orders the roots to `[/a, /a/c, /b]`, so the merged policy differs
from `A` as a value. -/
theorem C5_idempotence_counterexample :
    merge_sandbox_policies
        (SandboxPolicy.ReadOnly (ReadOnlyAccess.Restricted true [mpA, mpB, mpAC]))
        (SandboxPolicy.ReadOnly (ReadOnlyAccess.Restricted true [mpA, mpB, mpAC]))
      ≠ SandboxPolicy.ReadOnly (ReadOnlyAccess.Restricted true [mpA, mpB, mpAC]) := by
  decide

/-- C5 (amended): for every sandbox policy `A` of any shape,
`merge(A, A)` equals `A` up to the order (and multiplicity) of the root
lists: the variant, the network flag, the platform-defaults flag and the
tmp-exclusion flags are preserved exactly, and the readable and writable
root lists of the merge hold exactly the roots of `A`. -/
theorem C5_merge_self_idempotent (A : SandboxPolicy) :
    policySetEq (merge_sandbox_policies A A) A := by
  cases A with
  | DangerFullAccess => exact policySetEq_refl SandboxPolicy.DangerFullAccess
  | ExternalSandbox na => cases na <;> exact rfl
  | ReadOnly access =>
    show readAccessSetEq (merge_read_only_access access access) access
    exact merge_read_only_access_self access
  | WorkspaceWrite w ra net e s =>
    exact ⟨fun x => mem_intersect_self, merge_read_only_access_self ra,
      Bool.and_self net, Bool.or_self e, Bool.or_self s⟩

/-- Closed instance of `C5_merge_self_idempotent` at a concrete policy. -/
theorem C5_merge_self_idempotent_witness :
    policySetEq
      (merge_sandbox_policies
        (SandboxPolicy.WorkspaceWrite [mpA, mpAC] ReadOnlyAccess.FullAccess true false true)
        (SandboxPolicy.WorkspaceWrite [mpA, mpAC] ReadOnlyAccess.FullAccess true false true))
      (SandboxPolicy.WorkspaceWrite [mpA, mpAC] ReadOnlyAccess.FullAccess true false true) :=
  C5_merge_self_idempotent
    (SandboxPolicy.WorkspaceWrite [mpA, mpAC] ReadOnlyAccess.FullAccess true false true)

/- Capability-coverage predicates for the meet property of the merge. -/

/-- The explicit roots of a read access (`FullAccess` lists none). -/
def accessRoots : ReadOnlyAccess → List MPath
  | ReadOnlyAccess.FullAccess => []
  | ReadOnlyAccess.Restricted _ readable_roots => readable_roots

/-- The readable roots a policy lists explicitly. -/
def readableRoots (p : SandboxPolicy) : List MPath :=
  accessRoots (read_access_for_policy p)

/-- The writable roots a policy lists explicitly. -/
def writableRootsOf : SandboxPolicy → List MPath
  | SandboxPolicy.WorkspaceWrite writable_roots _ _ _ _ => writable_roots
  | _ => []

/-- `p` grants read access at `x`: full read access, or `x` equals or
descends from one of the readable roots of `p`. -/
def readGrants (p : SandboxPolicy) (x : MPath) : Prop :=
  read_access_for_policy p = ReadOnlyAccess.FullAccess
    ∨ ∃ r ∈ readableRoots p, mpStartsWith x r = true

/-- `p` grants write access at `x`: unrestricted write (full access or
an external sandbox), or `x` equals or descends from one of the
writable roots of a workspace-write policy. -/
def writeGrants : SandboxPolicy → MPath → Prop
  | SandboxPolicy.DangerFullAccess, _ => True
  | SandboxPolicy.ExternalSandbox _, _ => True
  | SandboxPolicy.WorkspaceWrite writable_roots _ _ _ _, x =>
    ∃ r ∈ writable_roots, mpStartsWith x r = true
  | SandboxPolicy.ReadOnly _, _ => False

theorem merge_read_sound {ra rb : ReadOnlyAccess} {x : MPath}
    (hx : x ∈ accessRoots (merge_read_only_access ra rb)) :
    (ra = ReadOnlyAccess.FullAccess ∨ ∃ r ∈ accessRoots ra, mpStartsWith x r = true)
      ∧ (rb = ReadOnlyAccess.FullAccess ∨ ∃ r ∈ accessRoots rb, mpStartsWith x r = true) := by
  cases ra with
  | FullAccess =>
    cases rb with
    | FullAccess => simp [merge_read_only_access, accessRoots] at hx
    | Restricted d r =>
      have hx' : x ∈ r := by simpa [merge_read_only_access, accessRoots] using hx
      exact ⟨Or.inl rfl, Or.inr ⟨x, hx', mpStartsWith_self x⟩⟩
  | Restricted d1 r1 =>
    cases rb with
    | FullAccess =>
      have hx' : x ∈ r1 := by simpa [merge_read_only_access, accessRoots] using hx
      exact ⟨Or.inr ⟨x, hx', mpStartsWith_self x⟩, Or.inl rfl⟩
    | Restricted d2 r2 =>
      have hx' : x ∈ intersect_absolute_roots r1 r2 := by
        simpa [merge_read_only_access, accessRoots] using hx
      obtain ⟨l, hl, r, hr, hcand⟩ := mem_intersect_absolute_roots.mp hx'
      obtain ⟨_, hsl, hsr⟩ := rootCandidate_eq_some hcand
      exact ⟨Or.inr ⟨l, hl, hsl⟩, Or.inr ⟨r, hr, hsr⟩⟩

theorem merge_network_sound (A B : SandboxPolicy)
    (h : hasFullNetworkAccess (merge_sandbox_policies A B) = true) :
    hasFullNetworkAccess A = true ∧ hasFullNetworkAccess B = true := by
  unfold merge_sandbox_policies at h
  cases hm : wakMax (write_access_kind A) (write_access_kind B) with
  | ReadOnly => rw [hm] at h; simp [hasFullNetworkAccess] at h
  | WorkspaceWrite =>
    rw [hm] at h
    exact Bool.and_eq_true_iff.mp h
  | FullAccess =>
    rw [hm] at h
    by_cases hn : (hasFullNetworkAccess A && hasFullNetworkAccess B) = true
    · exact Bool.and_eq_true_iff.mp hn
    · rw [Bool.not_eq_true] at hn
      rw [hn] at h
      simp [hasFullNetworkAccess] at h

theorem wakRank_wakMax (a b : WriteAccessKind) :
    wakRank (wakMax a b) = max (wakRank a) (wakRank b) := by
  cases a <;> cases b <;> rfl

theorem merge_write_rank_eq (A B : SandboxPolicy) :
    wakRank (write_access_kind (merge_sandbox_policies A B))
      = max (wakRank (write_access_kind A)) (wakRank (write_access_kind B)) := by
  rw [← wakRank_wakMax]
  unfold merge_sandbox_policies
  cases hm : wakMax (write_access_kind A) (write_access_kind B) with
  | ReadOnly => rfl
  | WorkspaceWrite => rfl
  | FullAccess =>
    by_cases hn : (hasFullNetworkAccess A && hasFullNetworkAccess B) = true
    · simp only [hn, if_true]
      by_cases he : (isExternalSandboxPolicy A || isExternalSandboxPolicy B) = true
      · simp [he, write_access_kind]
      · rw [Bool.not_eq_true] at he
        simp [he, write_access_kind]
    · rw [Bool.not_eq_true] at hn
      simp [hn, write_access_kind]

theorem readableRoots_merge (A B : SandboxPolicy) :
    readableRoots (merge_sandbox_policies A B)
        = accessRoots (merge_read_only_access (read_access_for_policy A)
            (read_access_for_policy B))
      ∨ readableRoots (merge_sandbox_policies A B) = [] := by
  unfold merge_sandbox_policies
  cases hm : wakMax (write_access_kind A) (write_access_kind B) with
  | ReadOnly => exact Or.inl rfl
  | WorkspaceWrite => exact Or.inl rfl
  | FullAccess =>
    right
    by_cases hn : (hasFullNetworkAccess A && hasFullNetworkAccess B) = true
    · simp only [hn, if_true]
      by_cases he : (isExternalSandboxPolicy A || isExternalSandboxPolicy B) = true
      · simp [he, readableRoots, read_access_for_policy, accessRoots]
      · rw [Bool.not_eq_true] at he
        simp [he, readableRoots, read_access_for_policy, accessRoots]
    · rw [Bool.not_eq_true] at hn
      simp [hn, readableRoots, read_access_for_policy, accessRoots]

theorem writableRootsOf_merge (A B : SandboxPolicy) :
    writableRootsOf (merge_sandbox_policies A B) = [] ∨
      (wakMax (write_access_kind A) (write_access_kind B) = WriteAccessKind.WorkspaceWrite
        ∧ writableRootsOf (merge_sandbox_policies A B)
          = merge_workspace_roots
              ((workspace_policy_parts A).map (fun parts => parts.writable_roots))
              ((workspace_policy_parts B).map (fun parts => parts.writable_roots))) := by
  unfold merge_sandbox_policies
  cases hm : wakMax (write_access_kind A) (write_access_kind B) with
  | ReadOnly => exact Or.inl rfl
  | WorkspaceWrite => exact Or.inr ⟨rfl, rfl⟩
  | FullAccess =>
    left
    by_cases hn : (hasFullNetworkAccess A && hasFullNetworkAccess B) = true
    · simp only [hn, if_true]
      by_cases he : (isExternalSandboxPolicy A || isExternalSandboxPolicy B) = true
      · simp [he, writableRootsOf]
      · rw [Bool.not_eq_true] at he
        simp [he, writableRootsOf]
    · rw [Bool.not_eq_true] at hn
      simp [hn, writableRootsOf]

theorem writeGrants_of_parts_some {A : SandboxPolicy} {pa : WorkspacePolicyParts}
    (h : workspace_policy_parts A = some pa) {x : MPath}
    (hx : ∃ r ∈ pa.writable_roots, mpStartsWith x r = true) : writeGrants A x := by
  cases A <;> simp [workspace_policy_parts] at h
  case WorkspaceWrite w ra n e s =>
    subst h
    exact hx

theorem wak_ne_readOnly_of_wakMax_workspace {a b : WriteAccessKind}
    (h : wakMax a b = WriteAccessKind.WorkspaceWrite) :
    a ≠ WriteAccessKind.ReadOnly ∧ b ≠ WriteAccessKind.ReadOnly := by
  cases a <;> cases b <;> simp_all [wakMax, wakRank]

theorem writeGrants_of_parts_none {A : SandboxPolicy}
    (h : workspace_policy_parts A = none)
    (hk : write_access_kind A ≠ WriteAccessKind.ReadOnly) (x : MPath) : writeGrants A x := by
  cases A with
  | DangerFullAccess => trivial
  | ExternalSandbox na => trivial
  | ReadOnly access => exact absurd rfl hk
  | WorkspaceWrite w ra n e s => simp [workspace_policy_parts] at h

theorem merge_write_roots_sound (A B : SandboxPolicy) (x : MPath)
    (hx : x ∈ writableRootsOf (merge_sandbox_policies A B)) :
    writeGrants A x ∧ writeGrants B x := by
  rcases writableRootsOf_merge A B with he | ⟨hm, he⟩
  · rw [he] at hx
    cases hx
  · rw [he] at hx
    obtain ⟨hA, hB⟩ := wak_ne_readOnly_of_wakMax_workspace hm
    cases hpa : workspace_policy_parts A with
    | none =>
      cases hpb : workspace_policy_parts B with
      | none => simp [hpa, hpb, merge_workspace_roots] at hx
      | some pb =>
        rw [hpa, hpb] at hx
        have hx' : x ∈ pb.writable_roots := by
          simpa [merge_workspace_roots] using hx
        exact ⟨writeGrants_of_parts_none hpa hA x,
          writeGrants_of_parts_some hpb ⟨x, hx', mpStartsWith_self x⟩⟩
    | some pa =>
      cases hpb : workspace_policy_parts B with
      | none =>
        rw [hpa, hpb] at hx
        have hx' : x ∈ pa.writable_roots := by
          simpa [merge_workspace_roots] using hx
        exact ⟨writeGrants_of_parts_some hpa ⟨x, hx', mpStartsWith_self x⟩,
          writeGrants_of_parts_none hpb hB x⟩
      | some pb =>
        rw [hpa, hpb] at hx
        have hx' : x ∈ intersect_absolute_roots pa.writable_roots pb.writable_roots := by
          simpa [merge_workspace_roots] using hx
        obtain ⟨l, hl, r, hr, hcand⟩ := mem_intersect_absolute_roots.mp hx'
        obtain ⟨_, hsl, hsr⟩ := rootCandidate_eq_some hcand
        exact ⟨writeGrants_of_parts_some hpa ⟨l, hl, hsl⟩,
          writeGrants_of_parts_some hpb ⟨r, hr, hsr⟩⟩

theorem merge_read_roots_sound (A B : SandboxPolicy) (x : MPath)
    (hx : x ∈ readableRoots (merge_sandbox_policies A B)) :
    readGrants A x ∧ readGrants B x := by
  rcases readableRoots_merge A B with he | he
  · rw [he] at hx
    exact merge_read_sound hx
  · rw [he] at hx
    cases hx

/-- C1 (counterexample to the literal statement): with
`A = DangerFullAccess` and `B = ReadOnly{Restricted{[/b]}}`, the merged
policy lists readable root `/b`, which is not a root of both inputs nor
a descendant of roots of both inputs, because the full-access side lists
no roots at all. -/
theorem C1_literal_counterexample :
    ¬ (∀ x,
        x ∈ readableRoots
            (merge_sandbox_policies SandboxPolicy.DangerFullAccess
              (SandboxPolicy.ReadOnly (ReadOnlyAccess.Restricted true [mpB]))) →
          (x ∈ readableRoots SandboxPolicy.DangerFullAccess
              ∧ x ∈ readableRoots
                  (SandboxPolicy.ReadOnly (ReadOnlyAccess.Restricted true [mpB])))
            ∨ (∃ a ∈ readableRoots SandboxPolicy.DangerFullAccess,
                ∃ b ∈ readableRoots
                    (SandboxPolicy.ReadOnly (ReadOnlyAccess.Restricted true [mpB])),
                  mpStartsWith x a = true ∧ mpStartsWith x b = true)) := by
  intro h
  have hmem := h mpB (by decide)
  exact absurd hmem (by decide)

/-- C1 (amended): the merge is a meet that never widens access.  It
grants full network access only if both inputs do; the write-access rank
of the result is at least (in fact exactly) the maximum of the input
ranks; and every readable (resp. writable) root of the merged policy is,
with respect to each input, within the read (resp. write) capability
granted by that input — covered by its full access, or equal to or
descending from one of its roots — so no novel broader root is
ever introduced. -/
theorem C1_merge_never_widens (A B : SandboxPolicy) :
    (hasFullNetworkAccess (merge_sandbox_policies A B) = true →
        hasFullNetworkAccess A = true ∧ hasFullNetworkAccess B = true)
      ∧ max (wakRank (write_access_kind A)) (wakRank (write_access_kind B))
          ≤ wakRank (write_access_kind (merge_sandbox_policies A B))
      ∧ (∀ x ∈ readableRoots (merge_sandbox_policies A B), readGrants A x ∧ readGrants B x)
      ∧ (∀ x ∈ writableRootsOf (merge_sandbox_policies A B), writeGrants A x ∧ writeGrants B x) :=
  ⟨merge_network_sound A B, le_of_eq (merge_write_rank_eq A B).symm,
    merge_read_roots_sound A B, merge_write_roots_sound A B⟩

/-- Closed instance of `C1_merge_never_widens`: the network conjunct at
two full-access policies, and the readable-root conjunct at two nested
read-only policies, with every hypothesis discharged by evaluation. -/
theorem C1_merge_never_widens_witness :
    (hasFullNetworkAccess SandboxPolicy.DangerFullAccess = true
        ∧ hasFullNetworkAccess SandboxPolicy.DangerFullAccess = true)
      ∧ (readGrants (SandboxPolicy.ReadOnly (ReadOnlyAccess.Restricted true [mpA])) mpAB
          ∧ readGrants (SandboxPolicy.ReadOnly (ReadOnlyAccess.Restricted true [mpAB])) mpAB) :=
  ⟨(C1_merge_never_widens SandboxPolicy.DangerFullAccess SandboxPolicy.DangerFullAccess).1
      (by decide),
    (C1_merge_never_widens (SandboxPolicy.ReadOnly (ReadOnlyAccess.Restricted true [mpA]))
        (SandboxPolicy.ReadOnly (ReadOnlyAccess.Restricted true [mpAB]))).2.2.1 mpAB (by decide)⟩

/- The compiler claims C2 and C10. -/

/-- C2: `compile_permission_profile` derives the sandbox policy from the
normalized manifest paths: writable roots present gives `WorkspaceWrite`
with those roots, read-only access `Restricted` over the readable roots
when present and `FullAccess` otherwise, the network flag of the manifest,
both tmp-exclusion flags false; otherwise readable roots present gives
`ReadOnly{Restricted}`; otherwise the default minimal read-only policy;
and an entirely absent manifest compiles to no profile at all. -/
theorem C2_compile_policy_shape (env : PathEnv) (skill_dir : MPath)
    (perms : SkillManifestPermissions) :
    (normalize_permission_paths env skill_dir perms.file_system.write ≠ [] →
        (compile_permission_profile env skill_dir (some perms)).map
            (fun prof => prof.sandbox_policy)
          = some (SandboxPolicy.WorkspaceWrite
              (normalize_permission_paths env skill_dir perms.file_system.write)
              (if normalize_permission_paths env skill_dir perms.file_system.read = [] then
                ReadOnlyAccess.FullAccess
              else
                ReadOnlyAccess.Restricted true
                  (normalize_permission_paths env skill_dir perms.file_system.read))
              perms.network false false))
      ∧ (normalize_permission_paths env skill_dir perms.file_system.write = [] →
          normalize_permission_paths env skill_dir perms.file_system.read ≠ [] →
          (compile_permission_profile env skill_dir (some perms)).map
              (fun prof => prof.sandbox_policy)
            = some (SandboxPolicy.ReadOnly (ReadOnlyAccess.Restricted true
                (normalize_permission_paths env skill_dir perms.file_system.read))))
      ∧ (normalize_permission_paths env skill_dir perms.file_system.write = [] →
          normalize_permission_paths env skill_dir perms.file_system.read = [] →
          (compile_permission_profile env skill_dir (some perms)).map
              (fun prof => prof.sandbox_policy)
            = some new_read_only_policy)
      ∧ compile_permission_profile env skill_dir none = none := by
  refine ⟨?_, ?_, ?_, rfl⟩
  · intro hw
    have hw2 : (normalize_permission_paths env skill_dir perms.file_system.write).isEmpty = false :=
      List.isEmpty_eq_false.mpr hw
    by_cases hr : normalize_permission_paths env skill_dir perms.file_system.read = []
    · have hr2 : (normalize_permission_paths env skill_dir perms.file_system.read).isEmpty = true :=
        List.isEmpty_iff.mpr hr
      simp [compile_permission_profile, hw2, hr2, hr]
    · have hr2 : (normalize_permission_paths env skill_dir perms.file_system.read).isEmpty = false :=
        List.isEmpty_eq_false.mpr hr
      simp [compile_permission_profile, hw2, hr2, hr]
  · intro hw hr
    have hw2 : (normalize_permission_paths env skill_dir perms.file_system.write).isEmpty = true :=
      List.isEmpty_iff.mpr hw
    have hr2 : (normalize_permission_paths env skill_dir perms.file_system.read).isEmpty = false :=
      List.isEmpty_eq_false.mpr hr
    simp [compile_permission_profile, hw2, hr2]
  · intro hw hr
    have hw2 : (normalize_permission_paths env skill_dir perms.file_system.write).isEmpty = true :=
      List.isEmpty_iff.mpr hw
    have hr2 : (normalize_permission_paths env skill_dir perms.file_system.read).isEmpty = true :=
      List.isEmpty_iff.mpr hr
    simp [compile_permission_profile, hw2, hr2]

/-- A concrete environment for witnesses: no home directory, string
parsing yields the empty relative path, canonicalization always fails
(falling back to the lexical result), and the shell re-parsers never
fire. -/
def env0 : PathEnv :=
  { home := none,
    parsePath := fun _ => ⟨false, []⟩,
    canon := fun _ => none,
    shellPlainCommands := fun _ => none,
    shellCommandHead := fun _ => none }

/-- An empty macOS manifest block. -/
def macos0 : SkillManifestMacOsPermissions :=
  { preferences := none, automations := none, accessibility := false, calendar := false }

/-- A manifest with one writable entry and one readable entry. -/
def manifestRW : SkillManifestPermissions :=
  { network := true, file_system := { read := ["/r"], write := ["/w"] }, macos := macos0 }

/-- Closed instance of `C2_compile_policy_shape` at a concrete manifest
whose write entry normalizes away (it is blank) while `network = true`. -/
theorem C2_compile_policy_shape_witness :
    (compile_permission_profile env0 mpA
        (some { network := true, file_system := { read := [], write := ["   "] },
                macos := macos0 })).map (fun prof => prof.sandbox_policy)
      = some new_read_only_policy :=
  (C2_compile_policy_shape env0 mpA
      { network := true, file_system := { read := [], write := ["   "] }, macos := macos0 }).2.2.1
    (by decide) (by decide)

/-- C10: whenever every write entry of the manifest normalizes away (or
none is present), the compiled sandbox policy is a `ReadOnly` variant,
which carries no network grant even if the manifest declares
`network = true`. -/
theorem C10_readonly_ignores_network (env : PathEnv) (skill_dir : MPath)
    (perms : SkillManifestPermissions)
    (hw : normalize_permission_paths env skill_dir perms.file_system.write = []) :
    ∃ prof, compile_permission_profile env skill_dir (some perms) = some prof
      ∧ (∃ access, prof.sandbox_policy = SandboxPolicy.ReadOnly access)
      ∧ hasFullNetworkAccess prof.sandbox_policy = false := by
  have hw2 : (normalize_permission_paths env skill_dir perms.file_system.write).isEmpty = true :=
    List.isEmpty_iff.mpr hw
  by_cases hr : normalize_permission_paths env skill_dir perms.file_system.read = []
  · have hr2 : (normalize_permission_paths env skill_dir perms.file_system.read).isEmpty = true :=
      List.isEmpty_iff.mpr hr
    refine ⟨_, rfl, ⟨ReadOnlyAccess.Restricted true [], ?_⟩, ?_⟩ <;>
      simp [compile_permission_profile, hw2, hr2, new_read_only_policy, hasFullNetworkAccess]
  · have hr2 : (normalize_permission_paths env skill_dir perms.file_system.read).isEmpty = false :=
      List.isEmpty_eq_false.mpr hr
    refine ⟨_, rfl, ⟨ReadOnlyAccess.Restricted true
        (normalize_permission_paths env skill_dir perms.file_system.read), ?_⟩, ?_⟩ <;>
      simp [compile_permission_profile, hw2, hr2, hasFullNetworkAccess]

/-- Closed instance of `C10_readonly_ignores_network`: a manifest that
declares `network = true` and a lone blank write entry still compiles to
a read-only policy without network. -/
theorem C10_readonly_ignores_network_witness :
    ∃ prof,
      compile_permission_profile env0 mpA
          (some { network := true, file_system := { read := ["/r"], write := ["  "] },
                  macos := macos0 })
        = some prof
      ∧ (∃ access, prof.sandbox_policy = SandboxPolicy.ReadOnly access)
      ∧ hasFullNetworkAccess prof.sandbox_policy = false :=
  C10_readonly_ignores_network env0 mpA
    { network := true, file_system := { read := ["/r"], write := ["  "] }, macos := macos0 }
    (by decide)

/- The approval-policy claims C3 and the no-match frame claim C4. -/

theorem compile_approval_never (env : PathEnv) (skill_dir : MPath)
    (perms : SkillManifestPermissions) (prof : Permissions)
    (h : compile_permission_profile env skill_dir (some perms) = some prof) :
    prof.approval_policy = AskForApproval.Never := by
  simp only [compile_permission_profile, Option.some.injEq] at h
  rw [← h]

theorem stricter_approval_policy_never (a : AskForApproval) :
    stricter_approval_policy a AskForApproval.Never = AskForApproval.Never := by
  cases a <;> rfl

theorem resolve_matched_approval (env : PathEnv) (command : List String) (command_cwd : MPath)
    (turn_approval_policy : AskForApproval) (turn_sandbox_policy : SandboxPolicy)
    (turn_sandbox_cwd : MPath)
    (turn_macos_seatbelt_profile_extensions : Option MacOsSeatbeltProfileExtensions)
    (skills : List SkillMetadata) (disabled_paths : List MPath)
    (m : MatchedSkillPermissionProfile)
    (hfind : find_matching_skill_permission_profile env command command_cwd skills disabled_paths
      = some m)
    (hap : m.profile.approval_policy = AskForApproval.Never) :
    (resolve_effective_command_permissions env command command_cwd turn_approval_policy
        turn_sandbox_policy turn_sandbox_cwd turn_macos_seatbelt_profile_extensions skills
        disabled_paths).approval_policy = AskForApproval.Never := by
  simp only [resolve_effective_command_permissions, hfind]
  rw [hap]
  exact stricter_approval_policy_never turn_approval_policy

/-- C3: a compiled skill profile always carries approval policy `Never`;
`stricter_approval_policy` selects the argument of higher rank under the
fixed order `OnFailure(0) < OnRequest(1) < UnlessTrusted(2) < Never(3)`;
and consequently any command matched to a compiled skill profile resolves
to the effective approval policy `Never`, whatever the turn policy. -/
theorem C3_skill_approval_never :
    (∀ (env : PathEnv) (skill_dir : MPath) (perms : SkillManifestPermissions)
        (prof : Permissions),
        compile_permission_profile env skill_dir (some perms) = some prof →
        prof.approval_policy = AskForApproval.Never)
      ∧ (∀ a b : AskForApproval,
          approval_policy_rank (stricter_approval_policy a b)
              = max (approval_policy_rank a) (approval_policy_rank b)
            ∧ (stricter_approval_policy a b = a ∨ stricter_approval_policy a b = b))
      ∧ (∀ (env : PathEnv) (command : List String) (command_cwd : MPath)
          (turn_approval_policy : AskForApproval) (turn_sandbox_policy : SandboxPolicy)
          (turn_sandbox_cwd : MPath)
          (turn_macos_seatbelt_profile_extensions : Option MacOsSeatbeltProfileExtensions)
          (skills : List SkillMetadata) (disabled_paths : List MPath)
          (m : MatchedSkillPermissionProfile),
          find_matching_skill_permission_profile env command command_cwd skills disabled_paths
              = some m →
          (∃ env2 dir2 perms2,
            compile_permission_profile env2 dir2 (some perms2) = some m.profile) →
          (resolve_effective_command_permissions env command command_cwd turn_approval_policy
              turn_sandbox_policy turn_sandbox_cwd turn_macos_seatbelt_profile_extensions skills
              disabled_paths).approval_policy = AskForApproval.Never) := by
  refine ⟨compile_approval_never, ?_, ?_⟩
  · intro a b
    cases a <;> cases b <;> exact ⟨by decide, by decide⟩
  · intro env command command_cwd tA tS tCwd tExt skills disabled m hfind hc
    obtain ⟨env2, dir2, perms2, hcomp⟩ := hc
    exact resolve_matched_approval env command command_cwd tA tS tCwd tExt skills disabled m hfind
      (compile_approval_never env2 dir2 perms2 m.profile hcomp)

/-- The skill directory `/s` used by resolver witnesses. -/
def skillDir0 : MPath := ⟨true, [PComp.normal "s"]⟩

/-- The skill definition path `/s/SKILL.md` used by resolver witnesses. -/
def skillPath0 : MPath := ⟨true, [PComp.normal "s", PComp.normal "SKILL.md"]⟩

/-- An empty manifest (no network, no paths). -/
def manifest0 : SkillManifestPermissions :=
  { network := false, file_system := { read := [], write := [] }, macos := macos0 }

/-- The profile compiled from the empty manifest. -/
def profile0 : Permissions :=
  { approval_policy := AskForApproval.Never,
    sandbox_policy := new_read_only_policy,
    macos_seatbelt_profile_extensions := build_macos_seatbelt_profile_extensions macos0 }

/-- A skill rooted at `/s` with the profile of the empty manifest. -/
def skill0 : SkillMetadata := { path := skillPath0, permission_profile := some profile0 }

/-- Closed instance of `C3_skill_approval_never`: a concrete matched
skill suppresses the `OnRequest` turn policy down to `Never`. -/
theorem C3_skill_approval_never_witness :
    (resolve_effective_command_permissions env0 [] skillDir0 AskForApproval.OnRequest
        SandboxPolicy.DangerFullAccess mpA none [skill0] []).approval_policy
      = AskForApproval.Never :=
  C3_skill_approval_never.2.2 env0 [] skillDir0 AskForApproval.OnRequest
    SandboxPolicy.DangerFullAccess mpA none [skill0] []
    { profile := profile0, skill_dir := skillDir0 } (by decide)
    ⟨env0, skillDir0, manifest0, by decide⟩

theorem find_none_of_all_skipped (env : PathEnv) (command : List String) (command_cwd : MPath)
    (skills : List SkillMetadata) (disabled_paths : List MPath)
    (h : ∀ s ∈ skills, s.path ∈ disabled_paths ∨ s.permission_profile = none) :
    find_matching_skill_permission_profile env command command_cwd skills disabled_paths
      = none := by
  unfold find_matching_skill_permission_profile
  cases hn : normalize_runtime_absolute_path env command_cwd with
  | none => rfl
  | some ncwd =>
    have hall : skills.filterMap
        (skill_candidate env ncwd (collect_command_paths env command ncwd) disabled_paths)
        = [] := by
      rw [List.filterMap_eq_nil_iff]
      intro s hs
      rcases h s hs with hd | hp
      · simp [skill_candidate, hd]
      · by_cases hd2 : s.path ∈ disabled_paths <;> simp [skill_candidate, hd2, hp]
    show maxByCmp (fun l r => compare_path_specificity l.skill_dir r.skill_dir)
        (List.filterMap
          (skill_candidate env ncwd (collect_command_paths env command ncwd) disabled_paths)
          skills)
      = none
    rw [hall]
    rfl

/-- C4: when no skill matches — in particular when every candidate skill
is disabled or lacks a compiled profile — the resolver returns the turn
approval policy, sandbox policy, sandbox cwd and platform extensions
completely unchanged. -/
theorem C4_no_match_turn_defaults (env : PathEnv) (command : List String) (command_cwd : MPath)
    (turn_approval_policy : AskForApproval) (turn_sandbox_policy : SandboxPolicy)
    (turn_sandbox_cwd : MPath)
    (turn_macos_seatbelt_profile_extensions : Option MacOsSeatbeltProfileExtensions)
    (skills : List SkillMetadata) (disabled_paths : List MPath) :
    (find_matching_skill_permission_profile env command command_cwd skills disabled_paths = none →
        resolve_effective_command_permissions env command command_cwd turn_approval_policy
            turn_sandbox_policy turn_sandbox_cwd turn_macos_seatbelt_profile_extensions skills
            disabled_paths
          = { approval_policy := turn_approval_policy, sandbox_policy := turn_sandbox_policy,
              sandbox_cwd := turn_sandbox_cwd,
              macos_seatbelt_profile_extensions := turn_macos_seatbelt_profile_extensions })
      ∧ ((∀ s ∈ skills, s.path ∈ disabled_paths ∨ s.permission_profile = none) →
          resolve_effective_command_permissions env command command_cwd turn_approval_policy
              turn_sandbox_policy turn_sandbox_cwd turn_macos_seatbelt_profile_extensions skills
              disabled_paths
            = { approval_policy := turn_approval_policy, sandbox_policy := turn_sandbox_policy,
                sandbox_cwd := turn_sandbox_cwd,
                macos_seatbelt_profile_extensions := turn_macos_seatbelt_profile_extensions }) := by
  constructor
  · intro h
    simp [resolve_effective_command_permissions, h]
  · intro h
    simp [resolve_effective_command_permissions,
      find_none_of_all_skipped env command command_cwd skills disabled_paths h]

/-- Closed instance of `C4_no_match_turn_defaults`: disabling the only
candidate skill leaves the turn defaults untouched. -/
theorem C4_no_match_turn_defaults_witness :
    resolve_effective_command_permissions env0 [] skillDir0 AskForApproval.OnRequest
        SandboxPolicy.DangerFullAccess mpA none [skill0] [skillPath0]
      = { approval_policy := AskForApproval.OnRequest,
          sandbox_policy := SandboxPolicy.DangerFullAccess, sandbox_cwd := mpA,
          macos_seatbelt_profile_extensions := none } :=
  (C4_no_match_turn_defaults env0 [] skillDir0 AskForApproval.OnRequest
      SandboxPolicy.DangerFullAccess mpA none [skill0] [skillPath0]).2
    (by decide)

/- The home-expansion claim C9. -/

/-- C9: `expand_home` returns its input unchanged for every token that is
not exactly `~` and does not start with `~/` — in particular a
`~username/...` token is never expanded — and when no home directory is
available it returns `~` and `~/...` inputs unchanged as well. -/
theorem C9_expand_home_unchanged :
    (∀ (home : Option String) (path : String),
        path ≠ "~" → strStartsWith path "~/" = false → expand_home home path = path)
      ∧ (∀ path : String, expand_home none path = path) := by
  constructor
  · intro home path h1 h2
    unfold expand_home
    rw [if_neg h1]
    split
    · rename_i rest heq
      exfalso
      have hpre : strStartsWith path "~/" = true := by
        have hd : ("~/").data = ['~', '/'] := by decide
        unfold strStartsWith
        rw [heq, hd]
        simp [List.isPrefixOf]
      rw [hpre] at h2
      exact Bool.noConfusion h2
    · rfl
  · intro path
    by_cases h : path = "~"
    · simp [expand_home, h]
    · unfold expand_home
      rw [if_neg h]
      split
      · rfl
      · rfl

/-- Closed instance of `C9_expand_home_unchanged`: even with a home
directory available, a `~username/...` token is returned unchanged. -/
theorem C9_expand_home_unchanged_witness :
    expand_home (some "/home/u") "~bob/x" = "~bob/x" :=
  C9_expand_home_unchanged.1 (some "/home/u") "~bob/x" (by decide) (by decide)

/- A model, written from the specification, of the per-turn
approval/execution state machine (spec sections 4.6, 5 and 7).  The
implementation lives in the approval/execution controller, which is
outside the sources at hand — only its integration tests are available —
so the machine below is modelled from the spec and the claims are settled
against it. -/

/-- Modelled from the spec: the status of a command-execution item
(`Pending`, `AwaitingApproval`, `Running`, `Completed{exit_code,
aggregated_output}`, `Declined`). -/
inductive ItemStatus where
  | Pending
  | AwaitingApproval
  | Running
  | Completed (exit_code : Int) (aggregated_output : String)
  | Declined
deriving DecidableEq

/-- Modelled from the spec: the decision of an approval exchange. -/
inductive ApprovalDecision where
  | Accept
  | Decline
  | Cancel
deriving DecidableEq

/-- Modelled from the spec: the status of a turn. -/
inductive TurnStatus where
  | InProgress
  | Completed
  | Interrupted
deriving DecidableEq

/-- Modelled from the spec: one item of a turn — its status, and whether
it was resolved via cancellation. -/
structure ItemState where
  status : ItemStatus
  viaCancellation : Bool
deriving DecidableEq

/-- Modelled from the spec: the state of one turn — its status and its
ordered items. -/
structure TurnState where
  status : TurnStatus
  items : List ItemState
deriving DecidableEq

/-- Modelled from the spec: the events driving the approval/execution
state machine — requiring approval, starting execution directly, an
approval decision, the reply of the worker or a worker-protocol fault, a
cancellation while a dispatched command is awaited, and turn
completion. -/
inductive TurnEvent where
  | requireApproval (i : Nat)
  | startRunning (i : Nat)
  | decide (i : Nat) (d : ApprovalDecision)
  | workerReply (i : Nat) (exit_code : Int) (aggregated_output : String)
  | workerFault (i : Nat)
  | cancelRunning (i : Nat)
  | finishTurn
deriving DecidableEq

/-- The status of item `i` of a turn, if it exists. -/
def itemStatus (s : TurnState) (i : Nat) : Option ItemStatus :=
  (s.items.get? i).map (fun it => it.status)

/-- Replace item `i` by `f` applied to it (no-op when out of range). -/
def setItem (s : TurnState) (i : Nat) (f : ItemState → ItemState) : TurnState :=
  { s with
    items :=
      match s.items.get? i with
      | some it => s.items.set i (f it)
      | none => s.items }

/-- Modelled from the spec: one transition of the approval/execution
state machine.  `Pending` items move to `AwaitingApproval` or `Running`;
an `Accept` decision starts execution, `Decline` resolves the item
`Declined`, and `Cancel` resolves it `Declined` via cancellation and
marks the turn `Interrupted`; a worker reply completes a running item
and a worker fault declines it; a cancellation during the execution wait
behaves like `Cancel`; turn completion closes an in-progress turn.
Transitions fire only from their well-defined predecessor state, so
`Declined` and `Completed` are terminal. -/
def turnStep (s : TurnState) (e : TurnEvent) : TurnState :=
  match e with
  | TurnEvent.requireApproval i =>
    if itemStatus s i = some ItemStatus.Pending then
      setItem s i (fun it => { it with status := ItemStatus.AwaitingApproval })
    else s
  | TurnEvent.startRunning i =>
    if itemStatus s i = some ItemStatus.Pending then
      setItem s i (fun it => { it with status := ItemStatus.Running })
    else s
  | TurnEvent.decide i d =>
    if itemStatus s i = some ItemStatus.AwaitingApproval then
      match d with
      | ApprovalDecision.Accept => setItem s i (fun it => { it with status := ItemStatus.Running })
      | ApprovalDecision.Decline =>
        setItem s i (fun it => { it with status := ItemStatus.Declined })
      | ApprovalDecision.Cancel =>
        { setItem s i (fun it =>
            { it with status := ItemStatus.Declined, viaCancellation := true }) with
          status := TurnStatus.Interrupted }
    else s
  | TurnEvent.workerReply i exit_code aggregated_output =>
    if itemStatus s i = some ItemStatus.Running then
      setItem s i (fun it => { it with status := ItemStatus.Completed exit_code aggregated_output })
    else s
  | TurnEvent.workerFault i =>
    if itemStatus s i = some ItemStatus.Running then
      setItem s i (fun it => { it with status := ItemStatus.Declined })
    else s
  | TurnEvent.cancelRunning i =>
    if itemStatus s i = some ItemStatus.Running then
      { setItem s i (fun it =>
          { it with status := ItemStatus.Declined, viaCancellation := true }) with
        status := TurnStatus.Interrupted }
    else s
  | TurnEvent.finishTurn =>
    if s.status = TurnStatus.InProgress then { s with status := TurnStatus.Completed } else s

/-- Modelled from the spec: a fresh turn with `n` pending items. -/
def initTurn (n : Nat) : TurnState :=
  { status := TurnStatus.InProgress,
    items := List.replicate n { status := ItemStatus.Pending, viaCancellation := false } }

/-- Run the machine from a fresh turn over a list of events. -/
def runTurn (n : Nat) (events : List TurnEvent) : TurnState :=
  events.foldl turnStep (initTurn n)

/- Lemmas about the turn machine. -/

theorem get?_set_self {α : Type} {l : List α} {i : Nat} {b : α} (a : α)
    (h : l.get? i = some b) : (l.set i a).get? i = some a := by
  induction l generalizing i with
  | nil => cases i <;> cases h
  | cons x xs ih =>
    cases i with
    | zero => rfl
    | succ n => exact ih h

theorem get?_set_ne {α : Type} {l : List α} {i j : Nat} (a : α) (h : i ≠ j) :
    (l.set i a).get? j = l.get? j := by
  induction l generalizing i j with
  | nil => simp
  | cons x xs ih =>
    cases i with
    | zero =>
      cases j with
      | zero => exact absurd rfl h
      | succ m => rfl
    | succ n =>
      cases j with
      | zero => rfl
      | succ m => exact ih (fun hnm => h (by rw [hnm]))

/-- The turn-level invariant: the turn is `Interrupted` exactly when some
item was resolved via cancellation. -/
def turnInv (s : TurnState) : Prop :=
  s.status = TurnStatus.Interrupted ↔ ∃ it ∈ s.items, it.viaCancellation = true

theorem setItem_status (s : TurnState) (i : Nat) (f : ItemState → ItemState) :
    (setItem s i f).status = s.status := by
  unfold setItem
  cases s.items.get? i <;> rfl

theorem exists_cancel_setItem {s : TurnState} {i : Nat} {f : ItemState → ItemState}
    (hf : ∀ it, (f it).viaCancellation = it.viaCancellation) :
    (∃ it ∈ (setItem s i f).items, it.viaCancellation = true)
      ↔ ∃ it ∈ s.items, it.viaCancellation = true := by
  unfold setItem
  cases hg : s.items.get? i with
  | none => simp
  | some it0 =>
    simp only
    constructor
    · rintro ⟨it, hmem, hflag⟩
      rcases List.mem_or_eq_of_mem_set hmem with hmem2 | rfl
      · exact ⟨it, hmem2, hflag⟩
      · rw [hf it0] at hflag
        exact ⟨it0, List.get?_mem hg, hflag⟩
    · rintro ⟨it, hmem, hflag⟩
      obtain ⟨j, hj⟩ := List.mem_iff_get?.mp hmem
      by_cases hij : i = j
      · subst hij
        rw [hg] at hj
        obtain rfl : it0 = it := Option.some.inj hj
        refine ⟨f it0, List.get?_mem (get?_set_self (f it0) hg), ?_⟩
        rw [hf it0]
        exact hflag
      · exact ⟨it, List.get?_mem (by rw [get?_set_ne _ hij]; exact hj), hflag⟩

theorem turnInv_setItem {s : TurnState} {i : Nat} {f : ItemState → ItemState}
    (hf : ∀ it, (f it).viaCancellation = it.viaCancellation) (hs : turnInv s) :
    turnInv (setItem s i f) := by
  unfold turnInv
  rw [setItem_status, exists_cancel_setItem hf]
  exact hs

theorem turnInv_cancelled {s : TurnState} {i : Nat} {it0 : ItemState}
    (hg : s.items.get? i = some it0) (f : ItemState → ItemState)
    (hf : ∀ it, (f it).viaCancellation = true) :
    turnInv { setItem s i f with status := TurnStatus.Interrupted } := by
  constructor
  · intro _
    refine ⟨f it0, ?_, hf it0⟩
    show f it0 ∈ (setItem s i f).items
    unfold setItem
    rw [hg]
    exact List.get?_mem (get?_set_self (f it0) hg)
  · intro _
    rfl

theorem turnStep_inv {s : TurnState} (hs : turnInv s) (e : TurnEvent) :
    turnInv (turnStep s e) := by
  cases e with
  | requireApproval i =>
    simp only [turnStep]
    by_cases hc : itemStatus s i = some ItemStatus.Pending
    · rw [if_pos hc]
      exact turnInv_setItem (fun it => rfl) hs
    · rw [if_neg hc]
      exact hs
  | startRunning i =>
    simp only [turnStep]
    by_cases hc : itemStatus s i = some ItemStatus.Pending
    · rw [if_pos hc]
      exact turnInv_setItem (fun it => rfl) hs
    · rw [if_neg hc]
      exact hs
  | decide i d =>
    simp only [turnStep]
    by_cases hc : itemStatus s i = some ItemStatus.AwaitingApproval
    · rw [if_pos hc]
      obtain ⟨it0, hg⟩ : ∃ it0, s.items.get? i = some it0 := by
        unfold itemStatus at hc
        cases hg : s.items.get? i with
        | none => rw [hg] at hc; cases hc
        | some it0 => exact ⟨it0, rfl⟩
      cases d with
      | Accept => exact turnInv_setItem (fun it => rfl) hs
      | Decline => exact turnInv_setItem (fun it => rfl) hs
      | Cancel => exact turnInv_cancelled hg _ (fun it => rfl)
    · rw [if_neg hc]
      exact hs
  | workerReply i exit_code aggregated_output =>
    simp only [turnStep]
    by_cases hc : itemStatus s i = some ItemStatus.Running
    · rw [if_pos hc]
      exact turnInv_setItem (fun it => rfl) hs
    · rw [if_neg hc]
      exact hs
  | workerFault i =>
    simp only [turnStep]
    by_cases hc : itemStatus s i = some ItemStatus.Running
    · rw [if_pos hc]
      exact turnInv_setItem (fun it => rfl) hs
    · rw [if_neg hc]
      exact hs
  | cancelRunning i =>
    simp only [turnStep]
    by_cases hc : itemStatus s i = some ItemStatus.Running
    · rw [if_pos hc]
      obtain ⟨it0, hg⟩ : ∃ it0, s.items.get? i = some it0 := by
        unfold itemStatus at hc
        cases hg : s.items.get? i with
        | none => rw [hg] at hc; cases hc
        | some it0 => exact ⟨it0, rfl⟩
      exact turnInv_cancelled hg _ (fun it => rfl)
    · rw [if_neg hc]
      exact hs
  | finishTurn =>
    simp only [turnStep]
    by_cases hc : s.status = TurnStatus.InProgress
    · rw [if_pos hc]
      constructor
      · intro h
        cases h
      · rintro h
        have hint := hs.mpr h
        rw [hc] at hint
        cases hint
    · rw [if_neg hc]
      exact hs

theorem runTurn_inv (n : Nat) (events : List TurnEvent) : turnInv (runTurn n events) := by
  have hinit : turnInv (initTurn n) := by
    constructor
    · intro h
      cases h
    · rintro ⟨it, hmem, hflag⟩
      have heq := List.eq_of_mem_replicate hmem
      rw [heq] at hflag
      cases hflag
  unfold runTurn
  suffices h : ∀ s : TurnState, turnInv s → turnInv (events.foldl turnStep s) from h _ hinit
  induction events with
  | nil => exact fun s hs => hs
  | cons e rest ih => exact fun s hs => ih _ (turnStep_inv hs e)

theorem itemStatus_setItem_ne {s : TurnState} {j i : Nat} (f : ItemState → ItemState)
    (h : j ≠ i) : itemStatus (setItem s j f) i = itemStatus s i := by
  unfold itemStatus setItem
  cases hg : s.items.get? j with
  | none => rfl
  | some it0 =>
    simp only
    rw [get?_set_ne _ h]

theorem declined_terminal {s : TurnState} {i : Nat} (e : TurnEvent)
    (h : itemStatus s i = some ItemStatus.Declined) :
    itemStatus (turnStep s e) i = some ItemStatus.Declined := by
  have hne : ∀ (st : ItemStatus), st ≠ ItemStatus.Declined →
      itemStatus s i = some st → False := by
    intro st hst hsome
    rw [h] at hsome
    exact hst (Option.some.inj hsome).symm
  have hset : ∀ (j : Nat) (f : ItemState → ItemState) (st : ItemStatus),
      st ≠ ItemStatus.Declined → itemStatus s j = some st →
      itemStatus (setItem s j f) i = some ItemStatus.Declined := by
    intro j f st hst hj
    have hij : j ≠ i := by
      intro hji
      subst hji
      exact hne st hst hj
    rw [itemStatus_setItem_ne f hij]
    exact h
  cases e with
  | requireApproval j =>
    simp only [turnStep]
    by_cases hc : itemStatus s j = some ItemStatus.Pending
    · rw [if_pos hc]
      exact hset j _ _ (by intro hx; cases hx) hc
    · rw [if_neg hc]
      exact h
  | startRunning j =>
    simp only [turnStep]
    by_cases hc : itemStatus s j = some ItemStatus.Pending
    · rw [if_pos hc]
      exact hset j _ _ (by intro hx; cases hx) hc
    · rw [if_neg hc]
      exact h
  | decide j d =>
    simp only [turnStep]
    by_cases hc : itemStatus s j = some ItemStatus.AwaitingApproval
    · rw [if_pos hc]
      have hij : j ≠ i := by
        intro hji
        subst hji
        exact hne _ (by intro hx; cases hx) hc
      cases d with
      | Accept => rw [itemStatus_setItem_ne _ hij]; exact h
      | Decline => rw [itemStatus_setItem_ne _ hij]; exact h
      | Cancel =>
        show itemStatus { setItem s j _ with status := TurnStatus.Interrupted } i = _
        have : itemStatus { setItem s j (fun it =>
            { it with status := ItemStatus.Declined, viaCancellation := true }) with
            status := TurnStatus.Interrupted } i
            = itemStatus (setItem s j (fun it =>
              { it with status := ItemStatus.Declined, viaCancellation := true })) i := rfl
        rw [this, itemStatus_setItem_ne _ hij]
        exact h
    · rw [if_neg hc]
      exact h
  | workerReply j exit_code aggregated_output =>
    simp only [turnStep]
    by_cases hc : itemStatus s j = some ItemStatus.Running
    · rw [if_pos hc]
      exact hset j _ _ (by intro hx; cases hx) hc
    · rw [if_neg hc]
      exact h
  | workerFault j =>
    simp only [turnStep]
    by_cases hc : itemStatus s j = some ItemStatus.Running
    · rw [if_pos hc]
      exact hset j _ _ (by intro hx; cases hx) hc
    · rw [if_neg hc]
      exact h
  | cancelRunning j =>
    simp only [turnStep]
    by_cases hc : itemStatus s j = some ItemStatus.Running
    · rw [if_pos hc]
      have hij : j ≠ i := by
        intro hji
        subst hji
        exact hne _ (by intro hx; cases hx) hc
      have : itemStatus { setItem s j (fun it =>
          { it with status := ItemStatus.Declined, viaCancellation := true }) with
          status := TurnStatus.Interrupted } i
          = itemStatus (setItem s j (fun it =>
            { it with status := ItemStatus.Declined, viaCancellation := true })) i := rfl
      rw [this, itemStatus_setItem_ne _ hij]
      exact h
    · rw [if_neg hc]
      exact h
  | finishTurn =>
    simp only [turnStep]
    by_cases hc : s.status = TurnStatus.InProgress
    · rw [if_pos hc]
      exact h
    · rw [if_neg hc]
      exact h

/-- C7: a `Cancel` decision on an item awaiting approval resolves that
item to the terminal status `Declined` and marks the owning turn
`Interrupted`; `Declined` items never transition further; and over every
run of the machine the turn is `Interrupted` exactly when some contained
item was resolved via cancellation. -/
theorem C7_cancel_interrupts_turn :
    (∀ (s : TurnState) (i : Nat),
        itemStatus s i = some ItemStatus.AwaitingApproval →
          itemStatus (turnStep s (TurnEvent.decide i ApprovalDecision.Cancel)) i
              = some ItemStatus.Declined
            ∧ (turnStep s (TurnEvent.decide i ApprovalDecision.Cancel)).status
              = TurnStatus.Interrupted)
      ∧ (∀ (s : TurnState) (e : TurnEvent) (i : Nat),
          itemStatus s i = some ItemStatus.Declined →
          itemStatus (turnStep s e) i = some ItemStatus.Declined)
      ∧ (∀ (n : Nat) (events : List TurnEvent),
          (runTurn n events).status = TurnStatus.Interrupted ↔
            ∃ it ∈ (runTurn n events).items, it.viaCancellation = true) := by
  refine ⟨?_, fun s e i h => declined_terminal e h, fun n events => runTurn_inv n events⟩
  intro s i h
  obtain ⟨it0, hg⟩ : ∃ it0, s.items.get? i = some it0 := by
    unfold itemStatus at h
    cases hg : s.items.get? i with
    | none => rw [hg] at h; cases h
    | some it0 => exact ⟨it0, rfl⟩
  simp only [turnStep]
  rw [if_pos h]
  constructor
  · show itemStatus (setItem s i _) i = _
    unfold itemStatus setItem
    rw [hg]
    simp only
    rw [get?_set_self _ hg]
    rfl
  · rfl

/-- Closed instance of `C7_cancel_interrupts_turn` at a one-item turn
whose item awaits approval. -/
theorem C7_cancel_interrupts_turn_witness :
    itemStatus
        (turnStep
          { status := TurnStatus.InProgress,
            items := [{ status := ItemStatus.AwaitingApproval, viaCancellation := false }] }
          (TurnEvent.decide 0 ApprovalDecision.Cancel)) 0
        = some ItemStatus.Declined
      ∧ (turnStep
          { status := TurnStatus.InProgress,
            items := [{ status := ItemStatus.AwaitingApproval, viaCancellation := false }] }
          (TurnEvent.decide 0 ApprovalDecision.Cancel)).status
        = TurnStatus.Interrupted :=
  C7_cancel_interrupts_turn.1
    { status := TurnStatus.InProgress,
      items := [{ status := ItemStatus.AwaitingApproval, viaCancellation := false }] } 0
    (by decide)

/- A model, written from the specification, of the worker-sidecar
protocol and its corruption recovery (spec section 4.7).  The controller
implementation is outside the sources at hand — only its integration
tests are available — so the model below is written from the spec and the
claim is settled against it. -/

/-- Modelled from the spec: what the controller can make of the worker
response to one dispatched command — either a well-formed protocol
message carrying exit status and captured output, or something that
cannot be parsed as one (free-text output, an error before any valid
reply, or an unexpected stream close). -/
inductive SidecarResponse where
  | reply (exit_status : Int) (captured_output : String)
  | corrupt
deriving DecidableEq

/-- Modelled from the spec: the outcome of one dispatched command.  It is
an ordinary value with no error constructor: a worker-protocol fault is
never a fatal controller error and is never thrown to the caller. -/
inductive CommandOutcome where
  | completed (exit_code : Int) (aggregated_output : String)
  | declined
deriving DecidableEq

/-- Modelled from the spec: the per-session sidecar state — the
generation number of the live worker, if one is alive, and how many
workers have ever been spawned for this session. -/
structure SidecarSession where
  worker : Option Nat
  spawns : Nat
deriving DecidableEq

/-- Modelled from the spec: dispatch one command on the session.  A
worker is spawned lazily when none is alive.  A well-formed reply
completes the command and keeps the worker; an unparseable response
resolves the command `Declined` and discards the worker, so that the
next dispatch respawns a fresh one. -/
def dispatchCommand (s : SidecarSession) (resp : SidecarResponse) :
    CommandOutcome × SidecarSession :=
  let spawned :=
    match s.worker with
    | some w => (w, s.spawns)
    | none => (s.spawns + 1, s.spawns + 1)
  match resp with
  | SidecarResponse.reply exit_status captured_output =>
    (CommandOutcome.completed exit_status captured_output,
      { worker := some spawned.1, spawns := spawned.2 })
  | SidecarResponse.corrupt =>
    (CommandOutcome.declined, { worker := none, spawns := spawned.2 })

/-- Run a sequence of dispatched commands on the session, collecting the
outcomes. -/
def runCommands (s : SidecarSession) : List SidecarResponse → List CommandOutcome × SidecarSession
  | [] => ([], s)
  | resp :: rest =>
    let step := dispatchCommand s resp
    let tail := runCommands step.2 rest
    (step.1 :: tail.1, tail.2)

/-- Modelled from the spec: a fresh session with no worker spawned yet. -/
def initSession : SidecarSession := { worker := none, spawns := 0 }

/-- C8: an unparseable worker response resolves the in-flight command
`Declined` — never `Completed` with an assumed result — and discards the
worker; a dispatch on a session without a live worker lazily spawns a
fresh one (a strictly newer generation) and completes normally on a
well-formed reply; and in the two-command scenario the first command is
declined while the second, in a later turn on the same session, completes
normally. -/
theorem C8_sidecar_corruption_recovery :
    (∀ s : SidecarSession,
        (dispatchCommand s SidecarResponse.corrupt).1 = CommandOutcome.declined
          ∧ (∀ (e : Int) (o : String),
              (dispatchCommand s SidecarResponse.corrupt).1 ≠ CommandOutcome.completed e o)
          ∧ (dispatchCommand s SidecarResponse.corrupt).2.worker = none)
      ∧ (∀ (s : SidecarSession) (e : Int) (o : String), s.worker = none →
          dispatchCommand s (SidecarResponse.reply e o)
            = (CommandOutcome.completed e o,
                { worker := some (s.spawns + 1), spawns := s.spawns + 1 })
            ∧ s.spawns < s.spawns + 1)
      ∧ (runCommands initSession
            [SidecarResponse.corrupt, SidecarResponse.reply 0 "second"]).1
          = [CommandOutcome.declined, CommandOutcome.completed 0 "second"] := by
  refine ⟨?_, ?_, rfl⟩
  · intro s
    refine ⟨rfl, ?_, rfl⟩
    intro e o hx
    exact CommandOutcome.noConfusion hx
  · intro s e o hw
    constructor
    · unfold dispatchCommand
      rw [hw]
    · exact Nat.lt_succ_self s.spawns

/-- Closed instance of `C8_sidecar_corruption_recovery`: after a
corrupted exchange on a live worker, the next dispatch respawns and
completes. -/
theorem C8_sidecar_corruption_recovery_witness :
    dispatchCommand (dispatchCommand { worker := some 1, spawns := 1 }
          SidecarResponse.corrupt).2 (SidecarResponse.reply 0 "ok")
      = (CommandOutcome.completed 0 "ok", { worker := some 2, spawns := 2 }) :=
  (C8_sidecar_corruption_recovery.2.1
    (dispatchCommand { worker := some 1, spawns := 1 } SidecarResponse.corrupt).2 0 "ok"
    (by decide)).1
